import Mathlib

/-!
Verification of the exact game-tree search in this repository:

* `src/gaming/464_Can_I_Win_AlphaBeta.py` — memoized alpha-beta minimax for the
  number-selection game (`Solution.minimax` / `Solution.canIWin`);
* `src/gaming/02_connect_n_gym/connect_n_gym/PlannedStrategy.py` — minimax with
  rotation-canonicalized memoization for the Connect-N placement game
  (`PlannedMinimaxStrategy`).

The Python code is embedded shallowly: the mutable memo dictionary/array is
threaded explicitly through the recursion, and the unbounded recursion is
driven by an explicit `fuel` argument (the recursion provably bottoms out
within `maxChoosableInteger` levels, see the fuel lemmas below).
-/

set_option maxRecDepth 4000

namespace Blog

/-! ### Number-selection game (`464_Can_I_Win_AlphaBeta.py`)

`Solution.minimax(status, currentTotal, isMaxPlayer, alpha, beta)` recurses over
bitmask `status` (bit `i` set iff integer `i` is already used), memoizing into
the array `self.dp` indexed by `status`.  We embed:

* `status`, the memo and the bit operations over `Nat`;
* `currentTotal`, `alpha`, `beta` and game values over `Int`;
* Python's `-math.inf` / `math.inf` loop seeds as the sentinels `-2` / `2`:
  every value the algorithm ever compares them against lies in `[-1, 1]`, so
  `max`/`min` behave identically.
-/

/-- The `allUsed` bitmask computed by `canIWin`:
`for i in range(1, n+1): allUsed = 1 << i | allUsed` (bits `1..n` set). -/
def allUsedMask (n : Nat) : Nat :=
  (List.range' 1 n).foldl (fun acc i => 1 <<< i ||| acc) 0

/-- Python's `-math.inf` seed of the maximizing loop (see module comment). -/
def negInfV : Int := -2

/-- Python's `math.inf` seed of the minimizing loop (see module comment). -/
def posInfV : Int := 2

/-- The memo array `self.dp` (entries `None` or a value in `[-2, 2]`), encoded
as the base-8 digits of a single natural number: digit `status` is `0` for
`None` and `v + 3` for a stored value `v`.  `dpGet` is `self.dp[status]`. -/
def dpGet (dp : Nat) (status : Nat) : Option Int :=
  let c := dp >>> (3 * status) % 8
  if c = 0 then none else some ((c : Int) - 3)

/-- The store `self.dp[status] = v`.  The algorithm only writes to entries that
are `None` at the time of the write (proved below), for which this encoding is
exact. -/
def dpSet (dp : Nat) (status : Nat) (v : Int) : Nat :=
  dp + (min 5 (max 1 (v + 3))).toNat <<< (3 * status)

/-- The `for i in range(1, n+1)` loop of the maximizing branch of
`Solution.minimax`; `rec` is the recursive call at one less fuel.  Loop state:
remaining indices, `value`, `alpha`, `beta`, memo `dp`.

```
value = -math.inf
for i in range(1, n + 1):
    if not (status >> i & 1):
        new_status = 1 << i | status
        if currentTotal + i >= self.desiredTotal:
            self.dp[status] = 1; return 1
        value = max(value, self.minimax(new_status, currentTotal + i, not isMaxPlayer, alpha, beta))
        alpha = max(alpha, value)
        if alpha >= beta:
            self.dp[status] = value; return value
self.dp[status] = value; return value
```
-/
def loopMax (rec : Nat → Int → Bool → Int → Int → Nat → Int × Nat) (total : Int)
    (status : Nat) (ct : Int) : List Nat → Int → Int → Int → Nat → Int × Nat
  | [], value, _, _, dp => (value, dpSet dp status value)
  | i :: rest, value, alpha, beta, dp =>
    if status.testBit i then loopMax rec total status ct rest value alpha beta dp
    else if total ≤ ct + (i : Int) then (1, dpSet dp status 1)
    else
      let r := rec (1 <<< i ||| status) (ct + (i : Int)) false alpha beta dp
      let value' := max value r.1
      let alpha' := max alpha value'
      if beta ≤ alpha' then (value', dpSet r.2 status value')
      else loopMax rec total status ct rest value' alpha' beta r.2

/-- The minimizing branch of the loop (mirror image of `loopMax`):
shortcut stores `-1`, `value = min(...)`, `beta = min(beta, value)`. -/
def loopMin (rec : Nat → Int → Bool → Int → Int → Nat → Int × Nat) (total : Int)
    (status : Nat) (ct : Int) : List Nat → Int → Int → Int → Nat → Int × Nat
  | [], value, _, _, dp => (value, dpSet dp status value)
  | i :: rest, value, alpha, beta, dp =>
    if status.testBit i then loopMin rec total status ct rest value alpha beta dp
    else if total ≤ ct + (i : Int) then (-1, dpSet dp status (-1))
    else
      let r := rec (1 <<< i ||| status) (ct + (i : Int)) true alpha beta dp
      let value' := min value r.1
      let beta' := min beta value'
      if beta' ≤ alpha then (value', dpSet r.2 status value')
      else loopMin rec total status ct rest value' alpha beta' r.2

/-- `Solution.minimax(status, currentTotal, isMaxPlayer, alpha, beta)` with the
memo threaded explicitly and recursion depth driven by `fuel` (each recursive
call sets one previously clear bit among `1..n`, so any `fuel ≥` the number of
unused integers makes the `fuel = 0` branch unreachable; see `minimaxF_fuel`). -/
def minimaxF (n : Nat) (total : Int) :
    Nat → Nat → Int → Bool → Int → Int → Nat → Int × Nat
  | fuel, status, ct, isMax, alpha, beta, dp =>
    match dpGet dp status with
    | some v => (v, dp)
    | none =>
      if status = allUsedMask n then (0, dp)
      else
        match fuel with
        | 0 => (0, dp)
        | fuel + 1 =>
          if isMax then
            loopMax (fun st c m a b d => minimaxF n total fuel st c m a b d)
              total status ct (List.range' 1 n) negInfV alpha beta dp
          else
            loopMin (fun st c m a b d => minimaxF n total fuel st c m a b d)
              total status ct (List.range' 1 n) posInfV alpha beta dp

/-- `Solution.canIWin(maxChoosableInteger, desiredTotal)`:
`self.dp = [None] * (allUsed + 1); return self.minimax(0, 0, True, -1, 1) == 1`.
Fuel `n` suffices for the root call (lemma `minimaxF_fuel_root`). -/
def canIWin (n : Nat) (total : Int) : Bool :=
  (minimaxF n total n 0 0 true (-1) 1 0).1 == 1

/-! #### Memo-encoding lemmas -/

theorem dpGet_zero (s : Nat) : dpGet 0 s = none := by
  simp [dpGet]

theorem dpGet_eq_none_iff {dp s : Nat} :
    dpGet dp s = none ↔ dp / 2 ^ (3 * s) % 8 = 0 := by
  simp only [dpGet, Nat.shiftRight_eq_div_pow]
  split <;> simp_all

theorem dpGet_eq_some {dp s : Nat} (h : dp / 2 ^ (3 * s) % 8 ≠ 0) :
    dpGet dp s = some (((dp / 2 ^ (3 * s) % 8 : Nat) : Int) - 3) := by
  simp only [dpGet, Nat.shiftRight_eq_div_pow]
  split <;> simp_all

/-- The clamped digit written by `dpSet` is always in `[1, 7]`. -/
theorem encV_bounds (v : Int) :
    0 < (min 5 (max 1 (v + 3))).toNat ∧ (min 5 (max 1 (v + 3))).toNat < 8 := by
  constructor <;> omega

theorem encV_of_range {v : Int} (h1 : -2 ≤ v) (h2 : v ≤ 2) :
    ((min 5 (max 1 (v + 3))).toNat : Int) = v + 3 := by
  omega

/-- Adding `c * B` to a number whose base-`8` digit at `B = 2^(3s)` is `0`
sets that digit to `c`. -/
theorem digit_add_self {d B c : Nat} (hB : 0 < B) (hd : d / B % 8 = 0)
    (hc : c < 8) : (d + c * B) / B % 8 = c := by
  rw [Nat.add_mul_div_right _ _ hB]
  omega

/-- Adding a multiple of `2^(3t+3)` does not change the base-8 digit at `t`. -/
theorem digit_add_mult {d m t : Nat} (hm : 2 ^ (3 * t + 3) ∣ m) :
    (d + m) / 2 ^ (3 * t) % 8 = d / 2 ^ (3 * t) % 8 := by
  obtain ⟨k, rfl⟩ := hm
  have h8 : (2 : Nat) ^ (3 * t + 3) = 2 ^ (3 * t) * 8 := by
    rw [pow_add]; norm_num
  rw [h8, mul_assoc, Nat.add_mul_div_left _ _ (Nat.pos_pow_of_pos _ (by norm_num))]
  omega

/-- Setting the (clear) digit at `s` does not change the digit at a lower `t`. -/
theorem digit_add_lower {d c s t : Nat} (h : t < s) :
    (d + c * 2 ^ (3 * s)) / 2 ^ (3 * t) % 8 = d / 2 ^ (3 * t) % 8 := by
  apply digit_add_mult
  exact Dvd.dvd.mul_left (pow_dvd_pow 2 (by omega)) c

/-- Setting the (clear) digit at `s` does not change the digit at a higher `t`. -/
theorem digit_add_higher {d c s t : Nat} (hst : s < t)
    (hd : d / 2 ^ (3 * s) % 8 = 0) (hc : c < 8) :
    (d + c * 2 ^ (3 * s)) / 2 ^ (3 * t) % 8 = d / 2 ^ (3 * t) % 8 := by
  have hB : (0 : Nat) < 2 ^ (3 * s) := Nat.pos_pow_of_pos _ (by norm_num)
  have hC : (0 : Nat) < 2 ^ (3 * t) := Nat.pos_pow_of_pos _ (by norm_num)
  set B := (2 : Nat) ^ (3 * s) with hBdef
  set C := (2 : Nat) ^ (3 * t) with hCdef
  have hCBK : C = B * 8 * 2 ^ (3 * t - (3 * s + 3)) := by
    rw [hBdef, hCdef]
    have h1 : (2 : Nat) ^ (3 * s) * 8 = 2 ^ (3 * s + 3) := by rw [pow_add]; norm_num
    rw [h1, ← pow_add]
    congr 1
    omega
  set K := (2 : Nat) ^ (3 * t - (3 * s + 3)) with hKdef
  have hK : 0 < K := Nat.pos_pow_of_pos _ (by norm_num)
  set r := d % C with hrdef
  set q := d / C with hqdef
  have hdq : C * q + r = d := Nat.div_add_mod d C
  have hrC : r < C := Nat.mod_lt _ hC
  -- the digit of `r` at `s` is also 0
  have hdvd : B * 8 ∣ C := Dvd.intro K (by rw [hCBK])
  have hr8 : r / B % 8 = 0 := by
    rw [Nat.div_mod_eq_mod_mul_div, hrdef, Nat.mod_mod_of_dvd d hdvd,
      ← Nat.div_mod_eq_mod_mul_div]
    exact hd
  set u := r / B with hudef
  set lo := r % B with hlodef
  have hru : B * u + lo = r := Nat.div_add_mod r B
  have hloB : lo < B := Nat.mod_lt _ hB
  have huK : u < 8 * K := by
    have : r < 8 * K * B := by
      calc r < C := hrC
        _ = 8 * K * B := by rw [hCBK]; ring
    exact (Nat.div_lt_iff_lt_mul hB).mpr this
  have huc : u + c + 1 ≤ 8 * K := by omega
  have hlt : r + c * B < C := by
    have e1 : r + c * B = B * (u + c) + lo := by rw [← hru]; ring
    have e2 : B * (u + c + 1) ≤ B * (8 * K) := Nat.mul_le_mul_left B huc
    have e3 : B * (u + c + 1) = B * (u + c) + B := by ring
    have e4 : B * (8 * K) = C := by rw [hCBK]; ring
    omega
  have hsum : d + c * B = (r + c * B) + C * q := by omega
  have hdiv : (d + c * B) / C = q := by
    rw [hsum, Nat.add_mul_div_left _ _ hC, Nat.div_eq_of_lt hlt]
    omega
  rw [hdiv]

theorem dpGet_dpSet_self {dp s : Nat} {v : Int} (h : dpGet dp s = none)
    (h1 : -2 ≤ v) (h2 : v ≤ 2) : dpGet (dpSet dp s v) s = some v := by
  have hd := dpGet_eq_none_iff.mp h
  have hB : (0 : Nat) < 2 ^ (3 * s) := Nat.pos_pow_of_pos _ (by norm_num)
  have hbounds := encV_bounds v
  have hne : (dpSet dp s v) / 2 ^ (3 * s) % 8 ≠ 0 := by
    rw [dpSet, Nat.shiftLeft_eq, digit_add_self hB hd hbounds.2]
    omega
  rw [dpGet_eq_some hne, dpSet, Nat.shiftLeft_eq, digit_add_self hB hd hbounds.2]
  rw [encV_of_range h1 h2]
  congr 1
  omega

/-! #### Bitmask lemmas -/

theorem testBit_foldl_mask (l : List Nat) (acc : Nat) (j : Nat) :
    (l.foldl (fun acc i => 1 <<< i ||| acc) acc).testBit j =
      (decide (j ∈ l) || acc.testBit j) := by
  induction l generalizing acc with
  | nil => simp
  | cons i t ih =>
    rw [List.foldl_cons, ih]
    simp only [Nat.testBit_lor, Nat.one_shiftLeft, List.mem_cons]
    by_cases hji : j = i
    · subst hji
      simp [Nat.testBit_two_pow_self]
    · have : ((2 : Nat) ^ i).testBit j = false := Nat.testBit_two_pow_of_ne (by omega)
      simp [this, hji]

theorem testBit_allUsedMask (n j : Nat) :
    (allUsedMask n).testBit j = (decide (1 ≤ j ∧ j ≤ n)) := by
  rw [allUsedMask, testBit_foldl_mask]
  simp only [Nat.zero_testBit, Bool.or_false]
  by_cases h : j ∈ List.range' 1 n
  · have := List.mem_range'_1.mp h
    simp [h]
    omega
  · have hnot : ¬(1 ≤ j ∧ j ≤ n) := fun ⟨a, b⟩ =>
      h (List.mem_range'_1.mpr ⟨a, by omega⟩)
    simp [h, hnot]

/-- The statuses reachable from the root: bits only among `1..n`
(`status` stays a submask of `allUsed`). -/
def MaskOnly (n st : Nat) : Prop := st &&& allUsedMask n = st

theorem maskOnly_iff {n st : Nat} :
    MaskOnly n st ↔ ∀ j, st.testBit j = true → 1 ≤ j ∧ j ≤ n := by
  constructor
  · intro h j hj
    have := congrArg (fun x => x.testBit j) h
    simp only [Nat.testBit_land, testBit_allUsedMask, hj, Bool.true_and] at this
    exact of_decide_eq_true this
  · intro h
    apply Nat.eq_of_testBit_eq
    intro j
    simp only [Nat.testBit_land, testBit_allUsedMask]
    by_cases hj : st.testBit j = true
    · simp [hj, h j hj]
    · simp [Bool.eq_false_iff.mpr hj]

theorem maskOnly_zero (n : Nat) : MaskOnly n 0 := by
  simp [MaskOnly]

theorem maskOnly_mask (n : Nat) : MaskOnly n (allUsedMask n) := by
  rw [maskOnly_iff]
  intro j hj
  rw [testBit_allUsedMask] at hj
  exact of_decide_eq_true hj

theorem testBit_setBit (st i j : Nat) :
    (1 <<< i ||| st).testBit j = (decide (j = i) || st.testBit j) := by
  rw [Nat.testBit_lor, Nat.one_shiftLeft]
  by_cases hji : j = i
  · subst hji; simp [Nat.testBit_two_pow_self]
  · have : ((2 : Nat) ^ i).testBit j = false := Nat.testBit_two_pow_of_ne (by omega)
    simp [this, hji]

theorem maskOnly_setBit {n st i : Nat} (h : MaskOnly n st) (h1 : 1 ≤ i)
    (h2 : i ≤ n) : MaskOnly n (1 <<< i ||| st) := by
  rw [maskOnly_iff] at h ⊢
  intro j hj
  rw [testBit_setBit] at hj
  rcases Bool.or_eq_true_iff.mp hj with hj | hj
  · have := of_decide_eq_true hj; omega
  · exact h j hj

/-- Setting a clear bit strictly increases the status. -/
theorem lt_setBit {st : Nat} (i : Nat) (h : st.testBit i = false) :
    st < 1 <<< i ||| st := by
  apply Nat.lt_of_testBit i h
  · rw [testBit_setBit]; simp
  · intro j hj
    rw [testBit_setBit]
    have : ¬ j = i := by omega
    simp [this]

/-- `currentTotal` bookkeeping: the sum of the used integers of a status. -/
def sumUsed (n st : Nat) : Nat :=
  ((List.range' 1 n).filter (fun i => st.testBit i)).sum

/-- Number of used integers of a status. -/
def usedCount (n st : Nat) : Nat :=
  ((List.range' 1 n).filter (fun i => st.testBit i)).length

/-- Number of unused integers of a status: bounds the recursion depth. -/
def freeCount (n st : Nat) : Nat :=
  ((List.range' 1 n).filter (fun i => !st.testBit i)).length

/-- The parity of the player to move at a root-reachable status:
the maximizing player moves exactly when an even number of integers is used. -/
def pMax (n st : Nat) : Bool := usedCount n st % 2 == 0

theorem sumUsed_zero (n : Nat) : sumUsed n 0 = 0 := by
  simp [sumUsed]

theorem usedCount_zero (n : Nat) : usedCount n 0 = 0 := by
  simp [usedCount]

theorem freeCount_zero (n : Nat) : freeCount n 0 = n := by
  simp [freeCount]

/-- Generic filter decomposition: if `p i = false` and `i` occurs (once) in a
duplicate-free list then filtering with `p` or equality-to-`i` is a permutation
of `i` plus filtering with `p`. -/
theorem filter_or_perm {l : List Nat} (hnd : l.Nodup) {i : Nat} (hi : i ∈ l)
    {p : Nat → Bool} (hpi : p i = false) :
    (l.filter (fun j => p j || decide (j = i))).Perm (i :: l.filter p) := by
  induction l with
  | nil => cases hi
  | cons a t ih =>
    rcases List.nodup_cons.mp hnd with ⟨hat, hndt⟩
    by_cases hai : a = i
    · subst hai
      have ht : t.filter (fun j => p j || decide (j = a)) = t.filter p := by
        apply List.filter_congr
        intro x hx
        have : ¬ x = a := fun hxa => hat (hxa ▸ hx)
        simp [this]
      simp [List.filter_cons, hpi, ht]
    · have hit : i ∈ t := by
        rcases List.mem_cons.mp hi with h | h
        · exact absurd h.symm hai
        · exact h
      by_cases hpa : p a = true
      · have h1 : (p a || decide (a = i)) = true := by simp [hpa]
        have h2 : (a :: t).filter (fun j => p j || decide (j = i)) =
            a :: t.filter (fun j => p j || decide (j = i)) := by
          rw [List.filter_cons]
          simp only [h1]
          simp
        have h3 : (a :: t).filter p = a :: t.filter p := by
          rw [List.filter_cons]
          simp [hpa]
        rw [h2, h3]
        exact ((ih hndt hit).cons a).trans (List.Perm.swap i a _)
      · have hpaf : p a = false := by revert hpa; cases p a <;> simp
        have h1 : (p a || decide (a = i)) = false := by
          simp [hpaf, hai]
        have h2 : (a :: t).filter (fun j => p j || decide (j = i)) =
            t.filter (fun j => p j || decide (j = i)) := by
          rw [List.filter_cons]
          simp only [h1]
          simp
        have h3 : (a :: t).filter p = t.filter p := by
          rw [List.filter_cons]
          simp [hpaf]
        rw [h2, h3]
        exact ih hndt hit

/-- Dual form: if `q i = true`, filtering with `q` is `i` plus filtering
with `q` minus `i`. -/
theorem filter_self_perm {l : List Nat} (hnd : l.Nodup) {i : Nat} (hi : i ∈ l)
    {q : Nat → Bool} (hqi : q i = true) :
    (l.filter q).Perm (i :: l.filter (fun j => q j && !decide (j = i))) := by
  have hcong : l.filter q =
      l.filter (fun j => (q j && !decide (j = i)) || decide (j = i)) := by
    apply List.filter_congr
    intro x _
    by_cases hxi : x = i
    · subst hxi; simp [hqi]
    · simp [hxi]
  rw [hcong]
  exact filter_or_perm hnd hi (by simp)

theorem nodup_range1 (n : Nat) : (List.range' 1 n).Nodup := List.nodup_range' 1 n

theorem usedFilter_setBit_perm {n st i : Nat} (h1 : 1 ≤ i) (h2 : i ≤ n)
    (hfree : st.testBit i = false) :
    ((List.range' 1 n).filter (fun j => (1 <<< i ||| st).testBit j)).Perm
      (i :: (List.range' 1 n).filter (fun j => st.testBit j)) := by
  have hmem : i ∈ List.range' 1 n := List.mem_range'_1.mpr ⟨h1, by omega⟩
  have hcong : (List.range' 1 n).filter (fun j => (1 <<< i ||| st).testBit j) =
      (List.range' 1 n).filter (fun j => st.testBit j || decide (j = i)) := by
    apply List.filter_congr
    intro x _
    rw [testBit_setBit, Bool.or_comm]
  rw [hcong]
  exact filter_or_perm (nodup_range1 n) hmem hfree

theorem sumUsed_setBit {n st i : Nat} (h1 : 1 ≤ i) (h2 : i ≤ n)
    (hfree : st.testBit i = false) :
    sumUsed n (1 <<< i ||| st) = i + sumUsed n st := by
  have := (usedFilter_setBit_perm h1 h2 hfree).sum_eq
  simpa [sumUsed] using this

theorem usedCount_setBit {n st i : Nat} (h1 : 1 ≤ i) (h2 : i ≤ n)
    (hfree : st.testBit i = false) :
    usedCount n (1 <<< i ||| st) = usedCount n st + 1 := by
  have := (usedFilter_setBit_perm h1 h2 hfree).length_eq
  simp only [List.length_cons] at this
  simpa [usedCount, Nat.add_comm] using this

theorem freeCount_setBit {n st i : Nat} (h1 : 1 ≤ i) (h2 : i ≤ n)
    (hfree : st.testBit i = false) :
    freeCount n st = freeCount n (1 <<< i ||| st) + 1 := by
  have hmem : i ∈ List.range' 1 n := List.mem_range'_1.mpr ⟨h1, by omega⟩
  have hperm := @filter_self_perm (List.range' 1 n) (nodup_range1 n) i hmem
    (fun j => !st.testBit j) (by simp [hfree])
  have hcong : (List.range' 1 n).filter (fun j => !st.testBit j && !decide (j = i)) =
      (List.range' 1 n).filter (fun j => !(1 <<< i ||| st).testBit j) := by
    apply List.filter_congr
    intro x _
    rw [testBit_setBit]
    by_cases hxi : x = i
    · subst hxi; simp [hfree]
    · simp [hxi]
  rw [hcong] at hperm
  have := hperm.length_eq
  simp only [List.length_cons] at this
  simpa [freeCount, Nat.add_comm] using this

theorem pMax_setBit {n st i : Nat} (h1 : 1 ≤ i) (h2 : i ≤ n)
    (hfree : st.testBit i = false) :
    pMax n (1 <<< i ||| st) = !pMax n st := by
  rw [pMax, pMax, usedCount_setBit h1 h2 hfree]
  rcases Nat.mod_two_eq_zero_or_one (usedCount n st) with h | h <;>
    simp [Nat.add_mod, h]

theorem pMax_zero (n : Nat) : pMax n 0 = true := by
  simp [pMax, usedCount_zero]

theorem filter_sum_le (l : List Nat) (p : Nat → Bool) :
    (l.filter p).sum ≤ l.sum := by
  induction l with
  | nil => simp
  | cons a t ih =>
    rw [List.filter_cons]
    by_cases hpa : p a = true
    · simp only [hpa, if_pos, List.sum_cons]
      omega
    · have : p a = false := by revert hpa; cases p a <;> simp
      simp only [this, List.sum_cons]
      simp only [Bool.false_eq_true, if_false]
      omega

theorem sumUsed_mask (n : Nat) :
    sumUsed n (allUsedMask n) = (List.range' 1 n).sum := by
  rw [sumUsed]
  congr 1
  apply List.filter_eq_self.mpr
  intro a ha
  rw [testBit_allUsedMask]
  have := List.mem_range'_1.mp ha
  simp
  omega

theorem sumUsed_le_mask (n st : Nat) :
    sumUsed n st ≤ sumUsed n (allUsedMask n) := by
  rw [sumUsed_mask]
  exact filter_sum_le _ _

/-- A proper submask of `allUsed` has a free integer in `1..n`. -/
theorem exists_free {n st : Nat} (hm : MaskOnly n st)
    (hne : st ≠ allUsedMask n) :
    ∃ i ∈ List.range' 1 n, st.testBit i = false := by
  by_contra hall
  push_neg at hall
  apply hne
  apply Nat.eq_of_testBit_eq
  intro j
  rw [testBit_allUsedMask]
  by_cases hj : j ∈ List.range' 1 n
  · have hmem := List.mem_range'_1.mp hj
    have := hall j hj
    have hbit : st.testBit j = true := by revert this; cases st.testBit j <;> simp
    rw [hbit]
    simp
    omega
  · have hnot : ¬(1 ≤ j ∧ j ≤ n) := fun ⟨a, b⟩ =>
      hj (List.mem_range'_1.mpr ⟨a, by omega⟩)
    have hbit : st.testBit j = false := by
      by_contra hb
      have : st.testBit j = true := by revert hb; cases st.testBit j <;> simp
      exact hnot ((maskOnly_iff.mp hm) j this)
    rw [hbit]
    simp [hnot]

theorem freeCount_pos {n st : Nat} (hm : MaskOnly n st)
    (hne : st ≠ allUsedMask n) : 1 ≤ freeCount n st := by
  obtain ⟨i, hi, hfree⟩ := exists_free hm hne
  have : i ∈ (List.range' 1 n).filter (fun j => !st.testBit j) :=
    List.mem_filter.mpr ⟨hi, by simp [hfree]⟩
  rw [freeCount]
  exact List.length_pos.mpr (fun he => by simp [he] at this)

theorem le_sum_range (n : Nat) (hn : 1 ≤ n) : n ≤ (List.range' 1 n).sum := by
  apply List.single_le_sum (by intro x _; omega) n
  exact List.mem_range'_1.mpr ⟨hn, by omega⟩

theorem dpGet_dpSet_ne {dp s t : Nat} {v : Int} (h : dpGet dp s = none)
    (hne : t ≠ s) : dpGet (dpSet dp s v) t = dpGet dp t := by
  have hd := dpGet_eq_none_iff.mp h
  have hbounds := encV_bounds v
  have hdig : (dpSet dp s v) / 2 ^ (3 * t) % 8 = dp / 2 ^ (3 * t) % 8 := by
    rw [dpSet, Nat.shiftLeft_eq]
    rcases Nat.lt_or_ge t s with hlt | hge
    · exact digit_add_lower hlt
    · exact digit_add_higher (by omega) hd hbounds.2
  by_cases h0 : dp / 2 ^ (3 * t) % 8 = 0
  · rw [dpGet_eq_none_iff.mpr (by omega), (@dpGet_eq_none_iff dp t).mpr h0]
  · rw [dpGet_eq_some (by omega), dpGet_eq_some h0, hdig]

/-! #### Unfolding helpers for `minimaxF` -/

theorem minimaxF_of_hit {n : Nat} {total : Int} {fuel st : Nat} {ct : Int}
    {mx : Bool} {alpha beta : Int} {dp : Nat} {v : Int}
    (h : dpGet dp st = some v) :
    minimaxF n total fuel st ct mx alpha beta dp = (v, dp) := by
  cases fuel <;> simp [minimaxF, h]

theorem minimaxF_of_terminal {n : Nat} {total : Int} {fuel : Nat} {ct : Int}
    {mx : Bool} {alpha beta : Int} {dp : Nat}
    (h : dpGet dp (allUsedMask n) = none) :
    minimaxF n total fuel (allUsedMask n) ct mx alpha beta dp = (0, dp) := by
  cases fuel <;> simp [minimaxF, h]

theorem minimaxF_succ_max {n : Nat} {total : Int} {fuel st : Nat} {ct : Int}
    {alpha beta : Int} {dp : Nat} (h : dpGet dp st = none)
    (hne : st ≠ allUsedMask n) :
    minimaxF n total (fuel + 1) st ct true alpha beta dp =
      loopMax (fun s c m a b d => minimaxF n total fuel s c m a b d)
        total st ct (List.range' 1 n) negInfV alpha beta dp := by
  simp [minimaxF, h, hne]

theorem minimaxF_succ_min {n : Nat} {total : Int} {fuel st : Nat} {ct : Int}
    {alpha beta : Int} {dp : Nat} (h : dpGet dp st = none)
    (hne : st ≠ allUsedMask n) :
    minimaxF n total (fuel + 1) st ct false alpha beta dp =
      loopMin (fun s c m a b d => minimaxF n total fuel s c m a b d)
        total st ct (List.range' 1 n) posInfV alpha beta dp := by
  simp [minimaxF, h, hne]

theorem minimaxF_zero_stuck {n : Nat} {total : Int} {st : Nat} {ct : Int}
    {mx : Bool} {alpha beta : Int} {dp : Nat} (h : dpGet dp st = none)
    (hne : st ≠ allUsedMask n) :
    minimaxF n total 0 st ct mx alpha beta dp = (0, dp) := by
  simp [minimaxF, h, hne]

/-! #### Memo preservation: the search never rebinds an existing entry

`MemoExt dp dp' st` says: going from memo `dp` to memo `dp'` (the result of
solving `st`), no key below `st` is touched and every existing binding is
preserved.  Since every recursive call strictly increases the status, the
write `dp[status] = v` at each level targets a key that is still unset. -/

def MemoExt (dp dp' st : Nat) : Prop :=
  (∀ t, t < st → dpGet dp' t = dpGet dp t) ∧
  (∀ t v, dpGet dp t = some v → dpGet dp' t = some v)

theorem memoExt_refl (dp st : Nat) : MemoExt dp dp st :=
  ⟨fun _ _ => rfl, fun _ _ h => h⟩

theorem memoExt_dpSet {dp st : Nat} {v : Int} (h : dpGet dp st = none) :
    MemoExt dp (dpSet dp st v) st := by
  constructor
  · intro t ht
    exact dpGet_dpSet_ne h (by omega)
  · intro t w hw
    by_cases hts : t = st
    · rw [hts, h] at hw; cases hw
    · rw [dpGet_dpSet_ne h hts]; exact hw

theorem memoExt_trans {dp d d' st : Nat} (h1 : MemoExt dp d st)
    (h2 : MemoExt d d' st) : MemoExt dp d' st :=
  ⟨fun t ht => (h2.1 t ht).trans (h1.1 t ht), fun t v hv => h2.2 t v (h1.2 t v hv)⟩

theorem memoExt_mono {dp d st st' : Nat} (hst : st ≤ st') (h : MemoExt dp d st') :
    MemoExt dp d st :=
  ⟨fun t ht => h.1 t (by omega), h.2⟩

theorem memoExt_loopMax {rec : Nat → Int → Bool → Int → Int → Nat → Int × Nat}
    (hrec : ∀ st' ct' mx' a' b' d',
      MemoExt d' (rec st' ct' mx' a' b' d').2 st')
    (total : Int) (st : Nat) (ct : Int) :
    ∀ (rest : List Nat) (value alpha beta : Int) (dp : Nat),
      dpGet dp st = none →
      MemoExt dp (loopMax rec total st ct rest value alpha beta dp).2 st := by
  intro rest
  induction rest with
  | nil =>
    intro value alpha beta dp hnone
    exact memoExt_dpSet hnone
  | cons i rest ih =>
    intro value alpha beta dp hnone
    rw [loopMax]
    by_cases hbit : st.testBit i
    · rw [if_pos hbit]
      exact ih value alpha beta dp hnone
    · rw [if_neg hbit]
      by_cases hshort : total ≤ ct + (i : Int)
      · rw [if_pos hshort]
        exact memoExt_dpSet hnone
      · rw [if_neg hshort]
        have hbitf : st.testBit i = false := by
          revert hbit; cases st.testBit i <;> simp
        have hlt : st < 1 <<< i ||| st := lt_setBit i hbitf
        have hchild := hrec (1 <<< i ||| st) (ct + (i : Int)) false alpha beta dp
        have hext : MemoExt dp
            ((rec (1 <<< i ||| st) (ct + (i : Int)) false alpha beta dp).2) st :=
          memoExt_mono (by omega) hchild
        have hnone2 : dpGet
            ((rec (1 <<< i ||| st) (ct + (i : Int)) false alpha beta dp).2) st =
            none := by
          rw [hchild.1 st hlt]; exact hnone
        simp only []
        by_cases hprune : beta ≤ max alpha
            (max value (rec (1 <<< i ||| st) (ct + (i : Int)) false alpha beta dp).1)
        · rw [if_pos hprune]
          exact memoExt_trans hext (memoExt_dpSet hnone2)
        · rw [if_neg hprune]
          exact memoExt_trans hext (ih _ _ _ _ hnone2)

theorem memoExt_loopMin {rec : Nat → Int → Bool → Int → Int → Nat → Int × Nat}
    (hrec : ∀ st' ct' mx' a' b' d',
      MemoExt d' (rec st' ct' mx' a' b' d').2 st')
    (total : Int) (st : Nat) (ct : Int) :
    ∀ (rest : List Nat) (value alpha beta : Int) (dp : Nat),
      dpGet dp st = none →
      MemoExt dp (loopMin rec total st ct rest value alpha beta dp).2 st := by
  intro rest
  induction rest with
  | nil =>
    intro value alpha beta dp hnone
    exact memoExt_dpSet hnone
  | cons i rest ih =>
    intro value alpha beta dp hnone
    rw [loopMin]
    by_cases hbit : st.testBit i
    · rw [if_pos hbit]
      exact ih value alpha beta dp hnone
    · rw [if_neg hbit]
      by_cases hshort : total ≤ ct + (i : Int)
      · rw [if_pos hshort]
        exact memoExt_dpSet hnone
      · rw [if_neg hshort]
        have hbitf : st.testBit i = false := by
          revert hbit; cases st.testBit i <;> simp
        have hlt : st < 1 <<< i ||| st := lt_setBit i hbitf
        have hchild := hrec (1 <<< i ||| st) (ct + (i : Int)) true alpha beta dp
        have hext : MemoExt dp
            ((rec (1 <<< i ||| st) (ct + (i : Int)) true alpha beta dp).2) st :=
          memoExt_mono (by omega) hchild
        have hnone2 : dpGet
            ((rec (1 <<< i ||| st) (ct + (i : Int)) true alpha beta dp).2) st =
            none := by
          rw [hchild.1 st hlt]; exact hnone
        simp only []
        by_cases hprune : min beta
            (min value (rec (1 <<< i ||| st) (ct + (i : Int)) true alpha beta dp).1) ≤ alpha
        · rw [if_pos hprune]
          exact memoExt_trans hext (memoExt_dpSet hnone2)
        · rw [if_neg hprune]
          exact memoExt_trans hext (ih _ _ _ _ hnone2)

theorem memoExt_minimaxF (n : Nat) (total : Int) :
    ∀ (fuel st : Nat) (ct : Int) (mx : Bool) (alpha beta : Int) (dp : Nat),
      MemoExt dp (minimaxF n total fuel st ct mx alpha beta dp).2 st := by
  intro fuel
  induction fuel with
  | zero =>
    intro st ct mx alpha beta dp
    cases h : dpGet dp st with
    | some v => rw [minimaxF_of_hit h]; exact memoExt_refl dp st
    | none =>
      by_cases hmask : st = allUsedMask n
      · subst hmask; rw [minimaxF_of_terminal h]; exact memoExt_refl dp _
      · rw [minimaxF_zero_stuck h hmask]; exact memoExt_refl dp st
  | succ fuel ih =>
    intro st ct mx alpha beta dp
    cases h : dpGet dp st with
    | some v => rw [minimaxF_of_hit h]; exact memoExt_refl dp st
    | none =>
      by_cases hmask : st = allUsedMask n
      · subst hmask; rw [minimaxF_of_terminal h]; exact memoExt_refl dp _
      · cases mx
        · rw [minimaxF_succ_min h hmask]
          exact memoExt_loopMin (fun st' ct' mx' a' b' d' => ih st' ct' mx' a' b' d')
            total st ct _ _ _ _ _ h
        · rw [minimaxF_succ_max h hmask]
          exact memoExt_loopMax (fun st' ct' mx' a' b' d' => ih st' ct' mx' a' b' d')
            total st ct _ _ _ _ _ h

/-! #### Fuel irrelevance: the recursion depth is bounded by `freeCount` -/

theorem loopMax_congr {rec₁ rec₂ : Nat → Int → Bool → Int → Int → Nat → Int × Nat}
    (total : Int) (st : Nat) (ct : Int) :
    ∀ rest : List Nat,
      (∀ i ∈ rest, st.testBit i = false →
        ∀ (c : Int) (a b : Int) (d : Nat),
          rec₁ (1 <<< i ||| st) c false a b d = rec₂ (1 <<< i ||| st) c false a b d) →
      ∀ (value alpha beta : Int) (dp : Nat),
        loopMax rec₁ total st ct rest value alpha beta dp =
        loopMax rec₂ total st ct rest value alpha beta dp := by
  intro rest
  induction rest with
  | nil => intro _ value alpha beta dp; rfl
  | cons i rest ih =>
    intro h value alpha beta dp
    have htail := fun j hj => h j (List.mem_cons_of_mem i hj)
    rw [loopMax, loopMax]
    by_cases hbit : st.testBit i
    · rw [if_pos hbit, if_pos hbit]
      exact ih htail value alpha beta dp
    · rw [if_neg hbit, if_neg hbit]
      by_cases hshort : total ≤ ct + (i : Int)
      · rw [if_pos hshort, if_pos hshort]
      · rw [if_neg hshort, if_neg hshort]
        have hbitf : st.testBit i = false := by
          revert hbit; cases st.testBit i <;> simp
        have he := h i (List.mem_cons_self i rest) hbitf (ct + (i : Int)) alpha beta dp
        simp only []
        rw [he]
        by_cases hprune : beta ≤ max alpha
            (max value (rec₂ (1 <<< i ||| st) (ct + (i : Int)) false alpha beta dp).1)
        · rw [if_pos hprune, if_pos hprune]
        · rw [if_neg hprune, if_neg hprune]
          exact ih htail _ _ _ _

theorem loopMin_congr {rec₁ rec₂ : Nat → Int → Bool → Int → Int → Nat → Int × Nat}
    (total : Int) (st : Nat) (ct : Int) :
    ∀ rest : List Nat,
      (∀ i ∈ rest, st.testBit i = false →
        ∀ (c : Int) (a b : Int) (d : Nat),
          rec₁ (1 <<< i ||| st) c true a b d = rec₂ (1 <<< i ||| st) c true a b d) →
      ∀ (value alpha beta : Int) (dp : Nat),
        loopMin rec₁ total st ct rest value alpha beta dp =
        loopMin rec₂ total st ct rest value alpha beta dp := by
  intro rest
  induction rest with
  | nil => intro _ value alpha beta dp; rfl
  | cons i rest ih =>
    intro h value alpha beta dp
    have htail := fun j hj => h j (List.mem_cons_of_mem i hj)
    rw [loopMin, loopMin]
    by_cases hbit : st.testBit i
    · rw [if_pos hbit, if_pos hbit]
      exact ih htail value alpha beta dp
    · rw [if_neg hbit, if_neg hbit]
      by_cases hshort : total ≤ ct + (i : Int)
      · rw [if_pos hshort, if_pos hshort]
      · rw [if_neg hshort, if_neg hshort]
        have hbitf : st.testBit i = false := by
          revert hbit; cases st.testBit i <;> simp
        have he := h i (List.mem_cons_self i rest) hbitf (ct + (i : Int)) alpha beta dp
        simp only []
        rw [he]
        by_cases hprune : min beta
            (min value (rec₂ (1 <<< i ||| st) (ct + (i : Int)) true alpha beta dp).1) ≤ alpha
        · rw [if_pos hprune, if_pos hprune]
        · rw [if_neg hprune, if_neg hprune]
          exact ih htail _ _ _ _

/-- Any two sufficient fuels compute the same result: the recursion bottoms out
within `freeCount n st` levels (each recursive call consumes one free bit). -/
theorem minimaxF_fuel_eq (n : Nat) (total : Int) :
    ∀ (k : Nat), ∀ (st : Nat), MaskOnly n st → freeCount n st ≤ k →
      ∀ (f₁ f₂ : Nat), freeCount n st ≤ f₁ → freeCount n st ≤ f₂ →
      ∀ (ct : Int) (mx : Bool) (alpha beta : Int) (dp : Nat),
        minimaxF n total f₁ st ct mx alpha beta dp =
        minimaxF n total f₂ st ct mx alpha beta dp := by
  intro k
  induction k with
  | zero =>
    intro st hm h0 f₁ f₂ h1 h2 ct mx alpha beta dp
    cases h : dpGet dp st with
    | some v => rw [minimaxF_of_hit h, minimaxF_of_hit h]
    | none =>
      by_cases hmask : st = allUsedMask n
      · subst hmask; rw [minimaxF_of_terminal h, minimaxF_of_terminal h]
      · exact absurd (freeCount_pos hm hmask) (by omega)
  | succ k ih =>
    intro st hm hk f₁ f₂ h1 h2 ct mx alpha beta dp
    cases h : dpGet dp st with
    | some v => rw [minimaxF_of_hit h, minimaxF_of_hit h]
    | none =>
      by_cases hmask : st = allUsedMask n
      · subst hmask; rw [minimaxF_of_terminal h, minimaxF_of_terminal h]
      · have hfc : 1 ≤ freeCount n st := freeCount_pos hm hmask
        cases f₁ with
        | zero => omega
        | succ g₁ =>
          cases f₂ with
          | zero => omega
          | succ g₂ =>
            have hchild : ∀ i ∈ List.range' 1 n, st.testBit i = false →
                ∀ (c : Int) (a b : Int) (d : Nat) (m : Bool),
                minimaxF n total g₁ (1 <<< i ||| st) c m a b d =
                minimaxF n total g₂ (1 <<< i ||| st) c m a b d := by
              intro i hi hbitf c a b d m
              have hr := List.mem_range'_1.mp hi
              have hin : i ≤ n := by omega
              have hmc : MaskOnly n (1 <<< i ||| st) :=
                maskOnly_setBit hm hr.1 hin
              have hfc' := freeCount_setBit hr.1 hin hbitf
              exact ih (1 <<< i ||| st) hmc (by omega) g₁ g₂ (by omega) (by omega)
                c m a b d
            cases mx
            · rw [minimaxF_succ_min h hmask, minimaxF_succ_min h hmask]
              exact loopMin_congr total st ct (List.range' 1 n)
                (fun i hi hb c a b d => hchild i hi hb c a b d true)
                posInfV alpha beta dp
            · rw [minimaxF_succ_max h hmask, minimaxF_succ_max h hmask]
              exact loopMax_congr total st ct (List.range' 1 n)
                (fun i hi hb c a b d => hchild i hi hb c a b d false)
                negInfV alpha beta dp

/-! #### Reference exhaustive minimax

Second definition for the refinement claim, following the spec's words
(§4.2 step 3 without steps c/d's pruning and without step 1's memoization):
iterate all available moves in order, an immediately winning move contributes
the moving player's win value, other moves contribute the recursively computed
value, and the final value is the running extremum over all moves. -/

def refLoopMax (rec : Nat → Int → Bool → Int) (total : Int) (st : Nat)
    (ct : Int) : List Nat → Int → Int
  | [], value => value
  | i :: rest, value =>
    if st.testBit i then refLoopMax rec total st ct rest value
    else if total ≤ ct + (i : Int) then
      refLoopMax rec total st ct rest (max value 1)
    else
      refLoopMax rec total st ct rest
        (max value (rec (1 <<< i ||| st) (ct + (i : Int)) false))

def refLoopMin (rec : Nat → Int → Bool → Int) (total : Int) (st : Nat)
    (ct : Int) : List Nat → Int → Int
  | [], value => value
  | i :: rest, value =>
    if st.testBit i then refLoopMin rec total st ct rest value
    else if total ≤ ct + (i : Int) then
      refLoopMin rec total st ct rest (min value (-1))
    else
      refLoopMin rec total st ct rest
        (min value (rec (1 <<< i ||| st) (ct + (i : Int)) true))

/-- Reference exhaustive minimax: no memo, no alpha-beta window, same move
order, same terminal-draw and immediate-win rules as the source. -/
def minimaxRefF (n : Nat) (total : Int) : Nat → Nat → Int → Bool → Int
  | fuel, st, ct, isMax =>
    if st = allUsedMask n then 0
    else
      match fuel with
      | 0 => 0
      | fuel + 1 =>
        if isMax then
          refLoopMax (fun s c m => minimaxRefF n total fuel s c m) total st ct
            (List.range' 1 n) negInfV
        else
          refLoopMin (fun s c m => minimaxRefF n total fuel s c m) total st ct
            (List.range' 1 n) posInfV

/-- The reference value of a root-reachable status (`fuel` = number of free
integers always suffices, and `currentTotal` is determined by the status). -/
def refVal (n : Nat) (total : Int) (st : Nat) (mx : Bool) : Int :=
  minimaxRefF n total (freeCount n st) st (sumUsed n st : Int) mx

theorem minimaxRefF_terminal {n : Nat} {total : Int} {fuel : Nat} {ct : Int}
    {mx : Bool} : minimaxRefF n total fuel (allUsedMask n) ct mx = 0 := by
  cases fuel <;> simp [minimaxRefF]

theorem minimaxRefF_succ_max {n : Nat} {total : Int} {fuel st : Nat} {ct : Int}
    (hne : st ≠ allUsedMask n) :
    minimaxRefF n total (fuel + 1) st ct true =
      refLoopMax (fun s c m => minimaxRefF n total fuel s c m) total st ct
        (List.range' 1 n) negInfV := by
  simp [minimaxRefF, hne]

theorem minimaxRefF_succ_min {n : Nat} {total : Int} {fuel st : Nat} {ct : Int}
    (hne : st ≠ allUsedMask n) :
    minimaxRefF n total (fuel + 1) st ct false =
      refLoopMin (fun s c m => minimaxRefF n total fuel s c m) total st ct
        (List.range' 1 n) posInfV := by
  simp [minimaxRefF, hne]

/-- If every examined move's value is a win for one side, the running maximum
over a list containing at least one move is a win for one side. -/
theorem refLoopMax_mem {rec : Nat → Int → Bool → Int} {total : Int} {st : Nat}
    {ct : Int} :
    ∀ (rest : List Nat),
      (∀ i ∈ rest, st.testBit i = false → ¬ total ≤ ct + (i : Int) →
        rec (1 <<< i ||| st) (ct + (i : Int)) false = -1 ∨
        rec (1 <<< i ||| st) (ct + (i : Int)) false = 1) →
      ∀ acc : Int,
        ((acc = -2 ∧ ∃ i ∈ rest, st.testBit i = false) ∨ acc = -1 ∨ acc = 1) →
        (refLoopMax rec total st ct rest acc = -1 ∨
         refLoopMax rec total st ct rest acc = 1) := by
  intro rest
  induction rest with
  | nil =>
    intro _ acc hacc
    rcases hacc with ⟨_, ⟨i, hi, _⟩⟩ | h | h
    · cases hi
    · left; rw [refLoopMax, h]
    · right; rw [refLoopMax, h]
  | cons j rest ih =>
    intro h acc hacc
    have htail := fun i hi => h i (List.mem_cons_of_mem j hi)
    rw [refLoopMax]
    by_cases hbit : st.testBit j
    · rw [if_pos hbit]
      apply ih htail acc
      rcases hacc with ⟨h2, ⟨i, hi, hfree⟩⟩ | h1 | h1
      · left
        refine ⟨h2, ⟨i, ?_, hfree⟩⟩
        rcases List.mem_cons.mp hi with hij | hit
        · subst hij; rw [hbit] at hfree; cases hfree
        · exact hit
      · right; left; exact h1
      · right; right; exact h1
    · rw [if_neg hbit]
      have hbitf : st.testBit j = false := by
        revert hbit; cases st.testBit j <;> simp
      by_cases hshort : total ≤ ct + (j : Int)
      · rw [if_pos hshort]
        apply ih htail (max acc 1)
        right; right
        rcases hacc with ⟨h2, _⟩ | h1 | h1
        · rw [h2]; decide
        · rw [h1]; decide
        · rw [h1]; decide
      · rw [if_neg hshort]
        have hc := h j (List.mem_cons_self j rest) hbitf hshort
        apply ih htail _
        right
        rcases hc with hc | hc <;> rw [hc] <;>
          rcases hacc with ⟨h2, _⟩ | h1 | h1
        · rw [h2]; left; decide
        · rw [h1]; left; decide
        · rw [h1]; right; decide
        · rw [h2]; right; decide
        · rw [h1]; right; decide
        · rw [h1]; right; decide

theorem refLoopMin_mem {rec : Nat → Int → Bool → Int} {total : Int} {st : Nat}
    {ct : Int} :
    ∀ (rest : List Nat),
      (∀ i ∈ rest, st.testBit i = false → ¬ total ≤ ct + (i : Int) →
        rec (1 <<< i ||| st) (ct + (i : Int)) true = -1 ∨
        rec (1 <<< i ||| st) (ct + (i : Int)) true = 1) →
      ∀ acc : Int,
        ((acc = 2 ∧ ∃ i ∈ rest, st.testBit i = false) ∨ acc = -1 ∨ acc = 1) →
        (refLoopMin rec total st ct rest acc = -1 ∨
         refLoopMin rec total st ct rest acc = 1) := by
  intro rest
  induction rest with
  | nil =>
    intro _ acc hacc
    rcases hacc with ⟨_, ⟨i, hi, _⟩⟩ | h | h
    · cases hi
    · left; rw [refLoopMin, h]
    · right; rw [refLoopMin, h]
  | cons j rest ih =>
    intro h acc hacc
    have htail := fun i hi => h i (List.mem_cons_of_mem j hi)
    rw [refLoopMin]
    by_cases hbit : st.testBit j
    · rw [if_pos hbit]
      apply ih htail acc
      rcases hacc with ⟨h2, ⟨i, hi, hfree⟩⟩ | h1 | h1
      · left
        refine ⟨h2, ⟨i, ?_, hfree⟩⟩
        rcases List.mem_cons.mp hi with hij | hit
        · subst hij; rw [hbit] at hfree; cases hfree
        · exact hit
      · right; left; exact h1
      · right; right; exact h1
    · rw [if_neg hbit]
      have hbitf : st.testBit j = false := by
        revert hbit; cases st.testBit j <;> simp
      by_cases hshort : total ≤ ct + (j : Int)
      · rw [if_pos hshort]
        apply ih htail (min acc (-1))
        right; left
        rcases hacc with ⟨h2, _⟩ | h1 | h1
        · rw [h2]; decide
        · rw [h1]; decide
        · rw [h1]; decide
      · rw [if_neg hshort]
        have hc := h j (List.mem_cons_self j rest) hbitf hshort
        apply ih htail _
        right
        rcases hc with hc | hc <;> rw [hc] <;>
          rcases hacc with ⟨h2, _⟩ | h1 | h1
        · rw [h2]; left; decide
        · rw [h1]; left; decide
        · rw [h1]; left; decide
        · rw [h2]; right; decide
        · rw [h1]; left; decide
        · rw [h1]; right; decide

/-- A running maximum already at `1` stays at `1` when every remaining move
value is at most `1`. -/
theorem refLoopMax_acc_one {rec : Nat → Int → Bool → Int} {total : Int}
    {st : Nat} {ct : Int} :
    ∀ (rest : List Nat),
      (∀ i ∈ rest, st.testBit i = false → ¬ total ≤ ct + (i : Int) →
        rec (1 <<< i ||| st) (ct + (i : Int)) false ≤ 1) →
      refLoopMax rec total st ct rest 1 = 1 := by
  intro rest
  induction rest with
  | nil => intro _; rw [refLoopMax]
  | cons j rest ih =>
    intro h
    have htail := fun i hi => h i (List.mem_cons_of_mem j hi)
    rw [refLoopMax]
    by_cases hbit : st.testBit j
    · rw [if_pos hbit]; exact ih htail
    · rw [if_neg hbit]
      have hbitf : st.testBit j = false := by
        revert hbit; cases st.testBit j <;> simp
      by_cases hshort : total ≤ ct + (j : Int)
      · rw [if_pos hshort]
        have : max (1 : Int) 1 = 1 := by decide
        rw [this]; exact ih htail
      · rw [if_neg hshort]
        have hle := h j (List.mem_cons_self j rest) hbitf hshort
        have : max (1 : Int) (rec (1 <<< j ||| st) (ct + (j : Int)) false) = 1 := by
          omega
        rw [this]; exact ih htail

/-- A running minimum already at `-1` stays at `-1` when every remaining move
value is at least `-1`. -/
theorem refLoopMin_acc_negone {rec : Nat → Int → Bool → Int} {total : Int}
    {st : Nat} {ct : Int} :
    ∀ (rest : List Nat),
      (∀ i ∈ rest, st.testBit i = false → ¬ total ≤ ct + (i : Int) →
        -1 ≤ rec (1 <<< i ||| st) (ct + (i : Int)) true) →
      refLoopMin rec total st ct rest (-1) = -1 := by
  intro rest
  induction rest with
  | nil => intro _; rw [refLoopMin]
  | cons j rest ih =>
    intro h
    have htail := fun i hi => h i (List.mem_cons_of_mem j hi)
    rw [refLoopMin]
    by_cases hbit : st.testBit j
    · rw [if_pos hbit]; exact ih htail
    · rw [if_neg hbit]
      have hbitf : st.testBit j = false := by
        revert hbit; cases st.testBit j <;> simp
      by_cases hshort : total ≤ ct + (j : Int)
      · rw [if_pos hshort]
        have : min (-1 : Int) (-1) = -1 := by decide
        rw [this]; exact ih htail
      · rw [if_neg hshort]
        have hle := h j (List.mem_cons_self j rest) hbitf hshort
        have : min (-1 : Int) (rec (1 <<< j ||| st) (ct + (j : Int)) true) = -1 := by
          omega
        rw [this]; exact ih htail

/-- In the winnable regime (`desiredTotal ≤ 1 + ... + n`), the reference value
of every reachable position is a win for one of the two players: the game
cannot end in a draw because the running total crosses the target before the
integers run out. -/
theorem refVal_mem (n : Nat) (total : Int)
    (hS : total ≤ (sumUsed n (allUsedMask n) : Int)) :
    ∀ (k st : Nat), MaskOnly n st → freeCount n st ≤ k →
      (sumUsed n st : Int) < total → ∀ mx,
      refVal n total st mx = -1 ∨ refVal n total st mx = 1 := by
  intro k
  induction k with
  | zero =>
    intro st hm hk hct _
    have hne : st ≠ allUsedMask n := by
      intro he; rw [he] at hct; omega
    exact absurd (freeCount_pos hm hne) (by omega)
  | succ k ih =>
    intro st hm hk hct mx
    have hne : st ≠ allUsedMask n := by
      intro he; rw [he] at hct; omega
    have hfc := freeCount_pos hm hne
    obtain ⟨g, hg⟩ : ∃ g, freeCount n st = g + 1 := ⟨freeCount n st - 1, by omega⟩
    have hfree := exists_free hm hne
    have hchild : ∀ i ∈ List.range' 1 n, st.testBit i = false →
        ¬ total ≤ (sumUsed n st : Int) + (i : Int) → ∀ m,
        minimaxRefF n total g (1 <<< i ||| st) ((sumUsed n st : Int) + (i : Int)) m = -1 ∨
        minimaxRefF n total g (1 <<< i ||| st) ((sumUsed n st : Int) + (i : Int)) m = 1 := by
      intro i hi hbitf hshort m
      have hr := List.mem_range'_1.mp hi
      have hin : i ≤ n := by omega
      have hmc := maskOnly_setBit hm hr.1 hin
      have hfcc := freeCount_setBit hr.1 hin hbitf
      have hcte : (sumUsed n st : Int) + (i : Int) =
          ((sumUsed n (1 <<< i ||| st)) : Int) := by
        rw [sumUsed_setBit hr.1 hin hbitf]; push_cast; ring
      have hctc : (sumUsed n (1 <<< i ||| st) : Int) < total := by
        rw [← hcte]; omega
      have hthis := ih (1 <<< i ||| st) hmc (by omega) hctc m
      rw [refVal] at hthis
      have hgc : freeCount n (1 <<< i ||| st) = g := by omega
      rw [hgc] at hthis
      rw [hcte]
      exact hthis
    rw [refVal, hg]
    cases mx
    · rw [minimaxRefF_succ_min hne]
      apply refLoopMin_mem
      · intro i hi hbitf hshort
        exact hchild i hi hbitf hshort true
      · left; exact ⟨rfl, hfree⟩
    · rw [minimaxRefF_succ_max hne]
      apply refLoopMax_mem
      · intro i hi hbitf hshort
        exact hchild i hi hbitf hshort false
      · left; exact ⟨rfl, hfree⟩

/-! #### Regime B (`desiredTotal ≤ 1 + ... + n`): pruning is exact

In this regime every reachable value is `±1`; the alpha-beta window stays
`(-1, 1)` through the whole search, a maximizing cutoff happens only at the
exact value `1` (dually `-1`), and every memo entry is the exact reference
value of its status. -/

/-- Memo soundness invariant for regime B: every stored entry is the exact
reference value of a reachable status. -/
def InvB (n : Nat) (total : Int) (dp : Nat) : Prop :=
  ∀ s v, dpGet dp s = some v →
    MaskOnly n s ∧ (sumUsed n s : Int) < total ∧ v = refVal n total s (pMax n s)

theorem invB_empty (n : Nat) (total : Int) : InvB n total 0 := by
  intro s v h
  rw [dpGet_zero] at h
  cases h

theorem invB_dpSet {n : Nat} {total : Int} {dp st : Nat} {v : Int}
    (hInv : InvB n total dp) (hnone : dpGet dp st = none)
    (hm : MaskOnly n st) (hct : (sumUsed n st : Int) < total)
    (hv : v = refVal n total st (pMax n st)) (hv1 : v = -1 ∨ v = 1) :
    InvB n total (dpSet dp st v) := by
  intro s w hw
  by_cases hs : s = st
  · subst hs
    rw [dpGet_dpSet_self hnone (by omega) (by omega)] at hw
    injection hw with hw2
    subst hw2
    exact ⟨hm, hct, hv⟩
  · rw [dpGet_dpSet_ne hnone hs] at hw
    exact hInv s w hw

theorem loopB_max (n : Nat) (total : Int)
    (hS : total ≤ (sumUsed n (allUsedMask n) : Int))
    (f g : Nat) (st : Nat) (hm : MaskOnly n st)
    (hct : (sumUsed n st : Int) < total)
    (hpm : pMax n st = true)
    (hgc0 : ∀ i, 1 ≤ i → i ≤ n → st.testBit i = false →
      freeCount n (1 <<< i ||| st) = g)
    (hrec : ∀ st', MaskOnly n st' → (sumUsed n st' : Int) < total →
      freeCount n st' = g → ∀ dp', InvB n total dp' →
      (minimaxF n total f st' (sumUsed n st' : Int) (pMax n st') (-1) 1 dp').1 =
        refVal n total st' (pMax n st') ∧
      InvB n total
        (minimaxF n total f st' (sumUsed n st' : Int) (pMax n st') (-1) 1 dp').2) :
    ∀ (rest : List Nat), (∀ i ∈ rest, 1 ≤ i ∧ i ≤ n) →
      ∀ (value : Int), (value = -2 ∨ value = -1) →
      ∀ (dp : Nat), InvB n total dp → dpGet dp st = none →
      ∃ dM, InvB n total dM ∧ dpGet dM st = none ∧
        loopMax (fun s c m a b d => minimaxF n total f s c m a b d) total st
            (sumUsed n st : Int) rest value (-1) 1 dp =
          (refLoopMax (fun s c m => minimaxRefF n total g s c m) total st
              (sumUsed n st : Int) rest value,
           dpSet dM st (refLoopMax (fun s c m => minimaxRefF n total g s c m)
              total st (sumUsed n st : Int) rest value)) := by
  intro rest
  induction rest with
  | nil =>
    intro _ value _ dp hInv hnone
    exact ⟨dp, hInv, hnone, rfl⟩
  | cons i rest ih =>
    intro hsub value hval dp hInv hnone
    have htail := fun j hj => hsub j (List.mem_cons_of_mem i hj)
    have hir := hsub i (List.mem_cons_self i rest)
    -- exact values of all candidate children among the full candidate list
    have hboundall : ∀ j, 1 ≤ j → j ≤ n → st.testBit j = false →
        ¬ total ≤ (sumUsed n st : Int) + (j : Int) →
        (minimaxRefF n total g (1 <<< j ||| st)
            ((sumUsed n st : Int) + (j : Int)) false = -1 ∨
         minimaxRefF n total g (1 <<< j ||| st)
            ((sumUsed n st : Int) + (j : Int)) false = 1) := by
      intro j hj1 hjn hbitf hshort
      have hmc := maskOnly_setBit hm hj1 hjn
      have hcte : (sumUsed n st : Int) + (j : Int) =
          ((sumUsed n (1 <<< j ||| st)) : Int) := by
        rw [sumUsed_setBit hj1 hjn hbitf]; push_cast; ring
      have hctc : (sumUsed n (1 <<< j ||| st) : Int) < total := by
        rw [← hcte]; omega
      have hmem := refVal_mem n total hS (freeCount n (1 <<< j ||| st))
        (1 <<< j ||| st) hmc le_rfl hctc false
      rw [refVal, hgc0 j hj1 hjn hbitf] at hmem
      rw [hcte]
      exact hmem
    rw [loopMax, refLoopMax]
    by_cases hbit : st.testBit i
    · rw [if_pos hbit, if_pos hbit]
      exact ih htail value hval dp hInv hnone
    · rw [if_neg hbit, if_neg hbit]
      have hbitf : st.testBit i = false := by
        revert hbit; cases st.testBit i <;> simp
      by_cases hshort : total ≤ (sumUsed n st : Int) + (i : Int)
      · rw [if_pos hshort, if_pos hshort]
        have hmax1 : max value 1 = (1 : Int) := by
          rcases hval with h | h <;> rw [h] <;> decide
        rw [hmax1]
        have hRone : refLoopMax (fun s c m => minimaxRefF n total g s c m)
            total st (sumUsed n st : Int) rest 1 = 1 := by
          apply refLoopMax_acc_one
          intro j hj hjb hjs
          have hjr := htail j hj
          rcases hboundall j hjr.1 hjr.2 hjb hjs with h | h <;> rw [h] <;> decide
        rw [hRone]
        exact ⟨dp, hInv, hnone, rfl⟩
      · rw [if_neg hshort, if_neg hshort]
        simp only []
        have hmc := maskOnly_setBit hm hir.1 hir.2
        have hgc := hgc0 i hir.1 hir.2 hbitf
        have hcte : (sumUsed n st : Int) + (i : Int) =
            ((sumUsed n (1 <<< i ||| st)) : Int) := by
          rw [sumUsed_setBit hir.1 hir.2 hbitf]; push_cast; ring
        have hctc : (sumUsed n (1 <<< i ||| st) : Int) < total := by
          rw [← hcte]; omega
        have hpmc : pMax n (1 <<< i ||| st) = false := by
          rw [pMax_setBit hir.1 hir.2 hbitf, hpm]; rfl
        have hrc := hrec (1 <<< i ||| st) hmc hctc hgc dp hInv
        rw [hpmc, ← hcte] at hrc
        have hmemo := memoExt_minimaxF n total f (1 <<< i ||| st)
          ((sumUsed n st : Int) + (i : Int)) false (-1) 1 dp
        have hlt : st < 1 <<< i ||| st := lt_setBit i hbitf
        have hnoneR : dpGet (minimaxF n total f (1 <<< i ||| st)
            ((sumUsed n st : Int) + (i : Int)) false (-1) 1 dp).2 st = none := by
          rw [hmemo.1 st hlt]; exact hnone
        have hcand : minimaxRefF n total g (1 <<< i ||| st)
            ((sumUsed n st : Int) + (i : Int)) false =
            refVal n total (1 <<< i ||| st) false := by
          rw [refVal, hgc, hcte]
        have hcmem := refVal_mem n total hS (freeCount n (1 <<< i ||| st))
          (1 <<< i ||| st) hmc le_rfl hctc false
        rcases hcmem with hcm | hcm
        · -- the child is a loss for the maximizer: keep iterating
          have hvv : max value (minimaxF n total f (1 <<< i ||| st)
              ((sumUsed n st : Int) + (i : Int)) false (-1) 1 dp).1 = -1 := by
            rw [hrc.1, hcm]
            rcases hval with h | h <;> rw [h] <;> decide
          have hrefacc : max value (minimaxRefF n total g (1 <<< i ||| st)
              ((sumUsed n st : Int) + (i : Int)) false) = -1 := by
            rw [hcand, hcm]
            rcases hval with h | h <;> rw [h] <;> decide
          rw [hvv, hrefacc]
          have hal : max (-1 : Int) (-1 : Int) = -1 := by decide
          rw [hal]
          have hprune : ¬ (1 : Int) ≤ (-1 : Int) := by decide
          rw [if_neg hprune]
          exact ih htail (-1) (Or.inr rfl) _ hrc.2 hnoneR
        · -- the child is a win for the maximizer: exact cutoff at value 1
          have hvv : max value (minimaxF n total f (1 <<< i ||| st)
              ((sumUsed n st : Int) + (i : Int)) false (-1) 1 dp).1 = 1 := by
            rw [hrc.1, hcm]
            rcases hval with h | h <;> rw [h] <;> decide
          have hrefacc : max value (minimaxRefF n total g (1 <<< i ||| st)
              ((sumUsed n st : Int) + (i : Int)) false) = 1 := by
            rw [hcand, hcm]
            rcases hval with h | h <;> rw [h] <;> decide
          rw [hvv, hrefacc]
          have hal : max (-1 : Int) (1 : Int) = 1 := by decide
          rw [hal]
          have hprune : (1 : Int) ≤ (1 : Int) := by decide
          rw [if_pos hprune]
          have hRone : refLoopMax (fun s c m => minimaxRefF n total g s c m)
              total st (sumUsed n st : Int) rest 1 = 1 := by
            apply refLoopMax_acc_one
            intro j hj hjb hjs
            have hjr := htail j hj
            rcases hboundall j hjr.1 hjr.2 hjb hjs with h | h <;> rw [h] <;> decide
          rw [hRone]
          exact ⟨_, hrc.2, hnoneR, rfl⟩

theorem loopB_min (n : Nat) (total : Int)
    (hS : total ≤ (sumUsed n (allUsedMask n) : Int))
    (f g : Nat) (st : Nat) (hm : MaskOnly n st)
    (hct : (sumUsed n st : Int) < total)
    (hpm : pMax n st = false)
    (hgc0 : ∀ i, 1 ≤ i → i ≤ n → st.testBit i = false →
      freeCount n (1 <<< i ||| st) = g)
    (hrec : ∀ st', MaskOnly n st' → (sumUsed n st' : Int) < total →
      freeCount n st' = g → ∀ dp', InvB n total dp' →
      (minimaxF n total f st' (sumUsed n st' : Int) (pMax n st') (-1) 1 dp').1 =
        refVal n total st' (pMax n st') ∧
      InvB n total
        (minimaxF n total f st' (sumUsed n st' : Int) (pMax n st') (-1) 1 dp').2) :
    ∀ (rest : List Nat), (∀ i ∈ rest, 1 ≤ i ∧ i ≤ n) →
      ∀ (value : Int), (value = 2 ∨ value = 1) →
      ∀ (dp : Nat), InvB n total dp → dpGet dp st = none →
      ∃ dM, InvB n total dM ∧ dpGet dM st = none ∧
        loopMin (fun s c m a b d => minimaxF n total f s c m a b d) total st
            (sumUsed n st : Int) rest value (-1) 1 dp =
          (refLoopMin (fun s c m => minimaxRefF n total g s c m) total st
              (sumUsed n st : Int) rest value,
           dpSet dM st (refLoopMin (fun s c m => minimaxRefF n total g s c m)
              total st (sumUsed n st : Int) rest value)) := by
  intro rest
  induction rest with
  | nil =>
    intro _ value _ dp hInv hnone
    exact ⟨dp, hInv, hnone, rfl⟩
  | cons i rest ih =>
    intro hsub value hval dp hInv hnone
    have htail := fun j hj => hsub j (List.mem_cons_of_mem i hj)
    have hir := hsub i (List.mem_cons_self i rest)
    have hboundall : ∀ j, 1 ≤ j → j ≤ n → st.testBit j = false →
        ¬ total ≤ (sumUsed n st : Int) + (j : Int) →
        (minimaxRefF n total g (1 <<< j ||| st)
            ((sumUsed n st : Int) + (j : Int)) true = -1 ∨
         minimaxRefF n total g (1 <<< j ||| st)
            ((sumUsed n st : Int) + (j : Int)) true = 1) := by
      intro j hj1 hjn hbitf hshort
      have hmc := maskOnly_setBit hm hj1 hjn
      have hcte : (sumUsed n st : Int) + (j : Int) =
          ((sumUsed n (1 <<< j ||| st)) : Int) := by
        rw [sumUsed_setBit hj1 hjn hbitf]; push_cast; ring
      have hctc : (sumUsed n (1 <<< j ||| st) : Int) < total := by
        rw [← hcte]; omega
      have hmem := refVal_mem n total hS (freeCount n (1 <<< j ||| st))
        (1 <<< j ||| st) hmc le_rfl hctc true
      rw [refVal, hgc0 j hj1 hjn hbitf] at hmem
      rw [hcte]
      exact hmem
    rw [loopMin, refLoopMin]
    by_cases hbit : st.testBit i
    · rw [if_pos hbit, if_pos hbit]
      exact ih htail value hval dp hInv hnone
    · rw [if_neg hbit, if_neg hbit]
      have hbitf : st.testBit i = false := by
        revert hbit; cases st.testBit i <;> simp
      by_cases hshort : total ≤ (sumUsed n st : Int) + (i : Int)
      · rw [if_pos hshort, if_pos hshort]
        have hmin1 : min value (-1) = (-1 : Int) := by
          rcases hval with h | h <;> rw [h] <;> decide
        rw [hmin1]
        have hRneg : refLoopMin (fun s c m => minimaxRefF n total g s c m)
            total st (sumUsed n st : Int) rest (-1) = -1 := by
          apply refLoopMin_acc_negone
          intro j hj hjb hjs
          have hjr := htail j hj
          rcases hboundall j hjr.1 hjr.2 hjb hjs with h | h <;> rw [h] <;> decide
        rw [hRneg]
        exact ⟨dp, hInv, hnone, rfl⟩
      · rw [if_neg hshort, if_neg hshort]
        simp only []
        have hmc := maskOnly_setBit hm hir.1 hir.2
        have hgc := hgc0 i hir.1 hir.2 hbitf
        have hcte : (sumUsed n st : Int) + (i : Int) =
            ((sumUsed n (1 <<< i ||| st)) : Int) := by
          rw [sumUsed_setBit hir.1 hir.2 hbitf]; push_cast; ring
        have hctc : (sumUsed n (1 <<< i ||| st) : Int) < total := by
          rw [← hcte]; omega
        have hpmc : pMax n (1 <<< i ||| st) = true := by
          rw [pMax_setBit hir.1 hir.2 hbitf, hpm]; rfl
        have hrc := hrec (1 <<< i ||| st) hmc hctc hgc dp hInv
        rw [hpmc, ← hcte] at hrc
        have hmemo := memoExt_minimaxF n total f (1 <<< i ||| st)
          ((sumUsed n st : Int) + (i : Int)) true (-1) 1 dp
        have hlt : st < 1 <<< i ||| st := lt_setBit i hbitf
        have hnoneR : dpGet (minimaxF n total f (1 <<< i ||| st)
            ((sumUsed n st : Int) + (i : Int)) true (-1) 1 dp).2 st = none := by
          rw [hmemo.1 st hlt]; exact hnone
        have hcand : minimaxRefF n total g (1 <<< i ||| st)
            ((sumUsed n st : Int) + (i : Int)) true =
            refVal n total (1 <<< i ||| st) true := by
          rw [refVal, hgc, hcte]
        have hcmem := refVal_mem n total hS (freeCount n (1 <<< i ||| st))
          (1 <<< i ||| st) hmc le_rfl hctc true
        rcases hcmem with hcm | hcm
        · -- the child is a win for the minimizer: exact cutoff at value -1
          have hvv : min value (minimaxF n total f (1 <<< i ||| st)
              ((sumUsed n st : Int) + (i : Int)) true (-1) 1 dp).1 = -1 := by
            rw [hrc.1, hcm]
            rcases hval with h | h <;> rw [h] <;> decide
          have hrefacc : min value (minimaxRefF n total g (1 <<< i ||| st)
              ((sumUsed n st : Int) + (i : Int)) true) = -1 := by
            rw [hcand, hcm]
            rcases hval with h | h <;> rw [h] <;> decide
          rw [hvv, hrefacc]
          have hbe : min (1 : Int) (-1 : Int) = -1 := by decide
          rw [hbe]
          have hprune : (-1 : Int) ≤ (-1 : Int) := by decide
          rw [if_pos hprune]
          have hRneg : refLoopMin (fun s c m => minimaxRefF n total g s c m)
              total st (sumUsed n st : Int) rest (-1) = -1 := by
            apply refLoopMin_acc_negone
            intro j hj hjb hjs
            have hjr := htail j hj
            rcases hboundall j hjr.1 hjr.2 hjb hjs with h | h <;> rw [h] <;> decide
          rw [hRneg]
          exact ⟨_, hrc.2, hnoneR, rfl⟩
        · -- the child is a loss for the minimizer: keep iterating
          have hvv : min value (minimaxF n total f (1 <<< i ||| st)
              ((sumUsed n st : Int) + (i : Int)) true (-1) 1 dp).1 = 1 := by
            rw [hrc.1, hcm]
            rcases hval with h | h <;> rw [h] <;> decide
          have hrefacc : min value (minimaxRefF n total g (1 <<< i ||| st)
              ((sumUsed n st : Int) + (i : Int)) true) = 1 := by
            rw [hcand, hcm]
            rcases hval with h | h <;> rw [h] <;> decide
          rw [hvv, hrefacc]
          have hbe : min (1 : Int) (1 : Int) = 1 := by decide
          rw [hbe]
          have hprune : ¬ ((1 : Int) ≤ (-1 : Int)) := by decide
          rw [if_neg hprune]
          exact ih htail 1 (Or.inr rfl) _ hrc.2 hnoneR

/-- Regime B main lemma: with the root window `(-1, 1)`, the memoized
alpha-beta search computes exactly the reference value of every reachable
status and preserves the memo invariant. -/
theorem solveB (n : Nat) (total : Int)
    (hS : total ≤ (sumUsed n (allUsedMask n) : Int)) :
    ∀ (k : Nat) (st : Nat), MaskOnly n st → (sumUsed n st : Int) < total →
      freeCount n st ≤ k →
      ∀ (fuel : Nat), freeCount n st ≤ fuel →
      ∀ (dp : Nat), InvB n total dp →
      (minimaxF n total fuel st (sumUsed n st : Int) (pMax n st) (-1) 1 dp).1 =
        refVal n total st (pMax n st) ∧
      InvB n total
        (minimaxF n total fuel st (sumUsed n st : Int) (pMax n st) (-1) 1 dp).2 := by
  intro k
  induction k with
  | zero =>
    intro st hm hct hk fuel hf dp hInv
    have hne : st ≠ allUsedMask n := fun he => by rw [he] at hct; omega
    exact absurd (freeCount_pos hm hne) (by omega)
  | succ k ih =>
    intro st hm hct hk fuel hf dp hInv
    have hne : st ≠ allUsedMask n := fun he => by rw [he] at hct; omega
    have hfc := freeCount_pos hm hne
    cases h : dpGet dp st with
    | some v =>
      rw [minimaxF_of_hit h]
      obtain ⟨_, _, hv⟩ := hInv st v h
      exact ⟨hv, hInv⟩
    | none =>
      obtain ⟨g, hg⟩ : ∃ g, freeCount n st = g + 1 :=
        ⟨freeCount n st - 1, by omega⟩
      cases fuel with
      | zero => omega
      | succ f =>
        have hgc0 : ∀ i, 1 ≤ i → i ≤ n → st.testBit i = false →
            freeCount n (1 <<< i ||| st) = g := by
          intro i h1 h2 hb
          have := freeCount_setBit h1 h2 hb
          omega
        have hrec : ∀ st', MaskOnly n st' → (sumUsed n st' : Int) < total →
            freeCount n st' = g → ∀ dp', InvB n total dp' →
            (minimaxF n total f st' (sumUsed n st' : Int) (pMax n st')
                (-1) 1 dp').1 = refVal n total st' (pMax n st') ∧
            InvB n total (minimaxF n total f st' (sumUsed n st' : Int)
                (pMax n st') (-1) 1 dp').2 :=
          fun st' hm' hct' hg' dp' hInv' =>
            ih st' hm' hct' (by omega) f (by omega) dp' hInv'
        have hsubr : ∀ i ∈ List.range' 1 n, 1 ≤ i ∧ i ≤ n := by
          intro i hi
          have := List.mem_range'_1.mp hi
          omega
        cases hpm : pMax n st with
        | true =>
          rw [minimaxF_succ_max h hne]
          obtain ⟨dM, hInvM, hnoneM, heq⟩ := loopB_max n total hS f g st hm hct
            hpm hgc0 hrec (List.range' 1 n) hsubr negInfV (Or.inl rfl) dp hInv h
          have hRval : refVal n total st true =
              refLoopMax (fun s c m => minimaxRefF n total g s c m) total st
                (sumUsed n st : Int) (List.range' 1 n) negInfV := by
            rw [refVal, hg, minimaxRefF_succ_max hne]
          have hmem := refVal_mem n total hS (freeCount n st) st hm le_rfl hct true
          rw [heq]
          constructor
          · rw [hRval]
          · apply invB_dpSet hInvM hnoneM hm hct
            · rw [hpm, hRval]
            · rw [← hRval]
              exact hmem
        | false =>
          rw [minimaxF_succ_min h hne]
          obtain ⟨dM, hInvM, hnoneM, heq⟩ := loopB_min n total hS f g st hm hct
            hpm hgc0 hrec (List.range' 1 n) hsubr posInfV (Or.inl rfl) dp hInv h
          have hRval : refVal n total st false =
              refLoopMin (fun s c m => minimaxRefF n total g s c m) total st
                (sumUsed n st : Int) (List.range' 1 n) posInfV := by
            rw [refVal, hg, minimaxRefF_succ_min hne]
          have hmem := refVal_mem n total hS (freeCount n st) st hm le_rfl hct false
          rw [heq]
          constructor
          · rw [hRval]
          · apply invB_dpSet hInvM hnoneM hm hct
            · rw [hpm, hRval]
            · rw [← hRval]
              exact hmem

/-! #### Regime A (`desiredTotal > 1 + ... + n`): everything is a draw

No prefix of picks can reach the target, so the immediate-win shortcut never
fires, every line of play ends with all integers used, and every value —
with or without pruning, under any alpha-beta window — is `0`. -/

theorem eq_mask_of_freeCount_zero {n st : Nat} (hm : MaskOnly n st)
    (h : freeCount n st = 0) : st = allUsedMask n := by
  by_contra hne
  exact absurd (freeCount_pos hm hne) (by omega)

/-- Memo soundness invariant for regime A: every stored entry is `0`. -/
def InvA (dp : Nat) : Prop := ∀ s v, dpGet dp s = some v → v = 0

theorem invA_empty : InvA 0 := by
  intro s v h
  rw [dpGet_zero] at h
  cases h

theorem invA_dpSet {dp st : Nat} {v : Int} (hInv : InvA dp)
    (hnone : dpGet dp st = none) (hv : v = 0) : InvA (dpSet dp st v) := by
  intro s w hw
  by_cases hs : s = st
  · subst hs
    rw [dpGet_dpSet_self hnone (by omega) (by omega)] at hw
    injection hw with hw2
    omega
  · rw [dpGet_dpSet_ne hnone hs] at hw
    exact hInv s w hw

theorem refLoopMax_allzero {rec : Nat → Int → Bool → Int} {total : Int}
    {st : Nat} {ct : Int} :
    ∀ (rest : List Nat),
      (∀ i ∈ rest, st.testBit i = false → ¬ total ≤ ct + (i : Int)) →
      (∀ i ∈ rest, st.testBit i = false →
        rec (1 <<< i ||| st) (ct + (i : Int)) false = 0) →
      ∀ acc : Int,
        ((acc = -2 ∧ ∃ i ∈ rest, st.testBit i = false) ∨ acc = 0) →
        refLoopMax rec total st ct rest acc = 0 := by
  intro rest
  induction rest with
  | nil =>
    intro _ _ acc hacc
    rcases hacc with ⟨_, ⟨i, hi, _⟩⟩ | h
    · cases hi
    · rw [refLoopMax, h]
  | cons j rest ih =>
    intro hns hz acc hacc
    have hnst := fun i hi => hns i (List.mem_cons_of_mem j hi)
    have hzt := fun i hi => hz i (List.mem_cons_of_mem j hi)
    rw [refLoopMax]
    by_cases hbit : st.testBit j
    · rw [if_pos hbit]
      apply ih hnst hzt acc
      rcases hacc with ⟨h2, ⟨i, hi, hfree⟩⟩ | h1
      · left
        refine ⟨h2, ⟨i, ?_, hfree⟩⟩
        rcases List.mem_cons.mp hi with hij | hit
        · subst hij; rw [hbit] at hfree; cases hfree
        · exact hit
      · right; exact h1
    · rw [if_neg hbit]
      have hbitf : st.testBit j = false := by
        revert hbit; cases st.testBit j <;> simp
      rw [if_neg (hns j (List.mem_cons_self j rest) hbitf)]
      rw [hz j (List.mem_cons_self j rest) hbitf]
      apply ih hnst hzt _
      right
      rcases hacc with ⟨h2, _⟩ | h1
      · rw [h2]; decide
      · rw [h1]; decide

theorem refLoopMin_allzero {rec : Nat → Int → Bool → Int} {total : Int}
    {st : Nat} {ct : Int} :
    ∀ (rest : List Nat),
      (∀ i ∈ rest, st.testBit i = false → ¬ total ≤ ct + (i : Int)) →
      (∀ i ∈ rest, st.testBit i = false →
        rec (1 <<< i ||| st) (ct + (i : Int)) true = 0) →
      ∀ acc : Int,
        ((acc = 2 ∧ ∃ i ∈ rest, st.testBit i = false) ∨ acc = 0) →
        refLoopMin rec total st ct rest acc = 0 := by
  intro rest
  induction rest with
  | nil =>
    intro _ _ acc hacc
    rcases hacc with ⟨_, ⟨i, hi, _⟩⟩ | h
    · cases hi
    · rw [refLoopMin, h]
  | cons j rest ih =>
    intro hns hz acc hacc
    have hnst := fun i hi => hns i (List.mem_cons_of_mem j hi)
    have hzt := fun i hi => hz i (List.mem_cons_of_mem j hi)
    rw [refLoopMin]
    by_cases hbit : st.testBit j
    · rw [if_pos hbit]
      apply ih hnst hzt acc
      rcases hacc with ⟨h2, ⟨i, hi, hfree⟩⟩ | h1
      · left
        refine ⟨h2, ⟨i, ?_, hfree⟩⟩
        rcases List.mem_cons.mp hi with hij | hit
        · subst hij; rw [hbit] at hfree; cases hfree
        · exact hit
      · right; exact h1
    · rw [if_neg hbit]
      have hbitf : st.testBit j = false := by
        revert hbit; cases st.testBit j <;> simp
      rw [if_neg (hns j (List.mem_cons_self j rest) hbitf)]
      rw [hz j (List.mem_cons_self j rest) hbitf]
      apply ih hnst hzt _
      right
      rcases hacc with ⟨h2, _⟩ | h1
      · rw [h2]; decide
      · rw [h1]; decide

/-- In regime A, the shortcut condition never fires: even after picking `i`,
the running total stays at most the sum of all integers. -/
theorem no_shortcut_A {n : Nat} {total : Int}
    (hS : (sumUsed n (allUsedMask n) : Int) < total) {st i : Nat}
    (hm : MaskOnly n st) (h1 : 1 ≤ i) (h2 : i ≤ n)
    (hbitf : st.testBit i = false) :
    ¬ total ≤ (sumUsed n st : Int) + (i : Int) := by
  have hle : sumUsed n (1 <<< i ||| st) ≤ sumUsed n (allUsedMask n) :=
    sumUsed_le_mask n _
  have he : sumUsed n (1 <<< i ||| st) = i + sumUsed n st :=
    sumUsed_setBit h1 h2 hbitf
  intro hcon
  omega

/-- Regime A, reference side: every reachable reference value is `0`. -/
theorem refA (n : Nat) (total : Int)
    (hS : (sumUsed n (allUsedMask n) : Int) < total) :
    ∀ (k : Nat) (st : Nat), MaskOnly n st → freeCount n st ≤ k → ∀ mx,
      refVal n total st mx = 0 := by
  intro k
  induction k with
  | zero =>
    intro st hm hk mx
    have hmask := eq_mask_of_freeCount_zero hm (by omega)
    subst hmask
    rw [refVal, minimaxRefF_terminal]
  | succ k ih =>
    intro st hm hk mx
    by_cases hne : st = allUsedMask n
    · subst hne
      rw [refVal, minimaxRefF_terminal]
    · have hfc := freeCount_pos hm hne
      obtain ⟨g, hg⟩ : ∃ g, freeCount n st = g + 1 :=
        ⟨freeCount n st - 1, by omega⟩
      have hfree := exists_free hm hne
      have hchild : ∀ i ∈ List.range' 1 n, st.testBit i = false → ∀ m,
          minimaxRefF n total g (1 <<< i ||| st)
            ((sumUsed n st : Int) + (i : Int)) m = 0 := by
        intro i hi hbitf m
        have hr := List.mem_range'_1.mp hi
        have hin : i ≤ n := by omega
        have hmc := maskOnly_setBit hm hr.1 hin
        have hfcc := freeCount_setBit hr.1 hin hbitf
        have hcte : (sumUsed n st : Int) + (i : Int) =
            ((sumUsed n (1 <<< i ||| st)) : Int) := by
          rw [sumUsed_setBit hr.1 hin hbitf]; push_cast; ring
        have hthis := ih (1 <<< i ||| st) hmc (by omega) m
        rw [refVal] at hthis
        have hgc : freeCount n (1 <<< i ||| st) = g := by omega
        rw [hgc] at hthis
        rw [hcte]
        exact hthis
      have hns : ∀ i ∈ List.range' 1 n, st.testBit i = false →
          ¬ total ≤ (sumUsed n st : Int) + (i : Int) := by
        intro i hi hbitf
        have hr := List.mem_range'_1.mp hi
        exact no_shortcut_A hS hm hr.1 (by omega) hbitf
      rw [refVal, hg]
      cases mx
      · rw [minimaxRefF_succ_min hne]
        apply refLoopMin_allzero _ hns
          (fun i hi hb => hchild i hi hb true)
        left; exact ⟨rfl, hfree⟩
      · rw [minimaxRefF_succ_max hne]
        apply refLoopMax_allzero _ hns
          (fun i hi hb => hchild i hi hb false)
        left; exact ⟨rfl, hfree⟩

theorem loopA_max (n : Nat) (total : Int)
    (hS : (sumUsed n (allUsedMask n) : Int) < total)
    (f g : Nat) (st : Nat) (hm : MaskOnly n st)
    (hgc0 : ∀ i, 1 ≤ i → i ≤ n → st.testBit i = false →
      freeCount n (1 <<< i ||| st) = g)
    (hrec : ∀ st', MaskOnly n st' → freeCount n st' = g →
      ∀ (m : Bool) (a b : Int) (d : Nat), InvA d →
      (minimaxF n total f st' (sumUsed n st' : Int) m a b d).1 = 0 ∧
      InvA (minimaxF n total f st' (sumUsed n st' : Int) m a b d).2) :
    ∀ (rest : List Nat), (∀ i ∈ rest, 1 ≤ i ∧ i ≤ n) →
      ∀ (value : Int),
        ((value = -2 ∧ ∃ i ∈ rest, st.testBit i = false) ∨ value = 0) →
      ∀ (alpha beta : Int) (dp : Nat), InvA dp → dpGet dp st = none →
      (loopMax (fun s c m a b d => minimaxF n total f s c m a b d) total st
          (sumUsed n st : Int) rest value alpha beta dp).1 = 0 ∧
      InvA (loopMax (fun s c m a b d => minimaxF n total f s c m a b d) total st
          (sumUsed n st : Int) rest value alpha beta dp).2 := by
  intro rest
  induction rest with
  | nil =>
    intro _ value hval alpha beta dp hInv hnone
    rcases hval with ⟨_, ⟨i, hi, _⟩⟩ | h
    · cases hi
    · subst h
      rw [loopMax]
      exact ⟨rfl, invA_dpSet hInv hnone rfl⟩
  | cons i rest ih =>
    intro hsub value hval alpha beta dp hInv hnone
    have htail := fun j hj => hsub j (List.mem_cons_of_mem i hj)
    have hir := hsub i (List.mem_cons_self i rest)
    rw [loopMax]
    by_cases hbit : st.testBit i
    · rw [if_pos hbit]
      apply ih htail value _ alpha beta dp hInv hnone
      rcases hval with ⟨h2, ⟨j, hj, hfree⟩⟩ | h1
      · left
        refine ⟨h2, ⟨j, ?_, hfree⟩⟩
        rcases List.mem_cons.mp hj with hij | hit
        · subst hij; rw [hbit] at hfree; cases hfree
        · exact hit
      · right; exact h1
    · rw [if_neg hbit]
      have hbitf : st.testBit i = false := by
        revert hbit; cases st.testBit i <;> simp
      rw [if_neg (no_shortcut_A hS hm hir.1 hir.2 hbitf)]
      simp only []
      have hmc := maskOnly_setBit hm hir.1 hir.2
      have hgc := hgc0 i hir.1 hir.2 hbitf
      have hcte : (sumUsed n st : Int) + (i : Int) =
          ((sumUsed n (1 <<< i ||| st)) : Int) := by
        rw [sumUsed_setBit hir.1 hir.2 hbitf]; push_cast; ring
      have hrc := hrec (1 <<< i ||| st) hmc hgc false alpha beta dp hInv
      rw [← hcte] at hrc
      have hmemo := memoExt_minimaxF n total f (1 <<< i ||| st)
        ((sumUsed n st : Int) + (i : Int)) false alpha beta dp
      have hlt : st < 1 <<< i ||| st := lt_setBit i hbitf
      have hnoneR : dpGet (minimaxF n total f (1 <<< i ||| st)
          ((sumUsed n st : Int) + (i : Int)) false alpha beta dp).2 st = none := by
        rw [hmemo.1 st hlt]; exact hnone
      have hvv : max value (minimaxF n total f (1 <<< i ||| st)
          ((sumUsed n st : Int) + (i : Int)) false alpha beta dp).1 = 0 := by
        rw [hrc.1]
        rcases hval with ⟨h2, _⟩ | h1
        · rw [h2]; decide
        · rw [h1]; decide
      rw [hvv]
      by_cases hprune : beta ≤ max alpha 0
      · rw [if_pos hprune]
        exact ⟨rfl, invA_dpSet hrc.2 hnoneR rfl⟩
      · rw [if_neg hprune]
        exact ih htail 0 (Or.inr rfl) (max alpha 0) beta _ hrc.2 hnoneR

theorem loopA_min (n : Nat) (total : Int)
    (hS : (sumUsed n (allUsedMask n) : Int) < total)
    (f g : Nat) (st : Nat) (hm : MaskOnly n st)
    (hgc0 : ∀ i, 1 ≤ i → i ≤ n → st.testBit i = false →
      freeCount n (1 <<< i ||| st) = g)
    (hrec : ∀ st', MaskOnly n st' → freeCount n st' = g →
      ∀ (m : Bool) (a b : Int) (d : Nat), InvA d →
      (minimaxF n total f st' (sumUsed n st' : Int) m a b d).1 = 0 ∧
      InvA (minimaxF n total f st' (sumUsed n st' : Int) m a b d).2) :
    ∀ (rest : List Nat), (∀ i ∈ rest, 1 ≤ i ∧ i ≤ n) →
      ∀ (value : Int),
        ((value = 2 ∧ ∃ i ∈ rest, st.testBit i = false) ∨ value = 0) →
      ∀ (alpha beta : Int) (dp : Nat), InvA dp → dpGet dp st = none →
      (loopMin (fun s c m a b d => minimaxF n total f s c m a b d) total st
          (sumUsed n st : Int) rest value alpha beta dp).1 = 0 ∧
      InvA (loopMin (fun s c m a b d => minimaxF n total f s c m a b d) total st
          (sumUsed n st : Int) rest value alpha beta dp).2 := by
  intro rest
  induction rest with
  | nil =>
    intro _ value hval alpha beta dp hInv hnone
    rcases hval with ⟨_, ⟨i, hi, _⟩⟩ | h
    · cases hi
    · subst h
      rw [loopMin]
      exact ⟨rfl, invA_dpSet hInv hnone rfl⟩
  | cons i rest ih =>
    intro hsub value hval alpha beta dp hInv hnone
    have htail := fun j hj => hsub j (List.mem_cons_of_mem i hj)
    have hir := hsub i (List.mem_cons_self i rest)
    rw [loopMin]
    by_cases hbit : st.testBit i
    · rw [if_pos hbit]
      apply ih htail value _ alpha beta dp hInv hnone
      rcases hval with ⟨h2, ⟨j, hj, hfree⟩⟩ | h1
      · left
        refine ⟨h2, ⟨j, ?_, hfree⟩⟩
        rcases List.mem_cons.mp hj with hij | hit
        · subst hij; rw [hbit] at hfree; cases hfree
        · exact hit
      · right; exact h1
    · rw [if_neg hbit]
      have hbitf : st.testBit i = false := by
        revert hbit; cases st.testBit i <;> simp
      rw [if_neg (no_shortcut_A hS hm hir.1 hir.2 hbitf)]
      simp only []
      have hmc := maskOnly_setBit hm hir.1 hir.2
      have hgc := hgc0 i hir.1 hir.2 hbitf
      have hcte : (sumUsed n st : Int) + (i : Int) =
          ((sumUsed n (1 <<< i ||| st)) : Int) := by
        rw [sumUsed_setBit hir.1 hir.2 hbitf]; push_cast; ring
      have hrc := hrec (1 <<< i ||| st) hmc hgc true alpha beta dp hInv
      rw [← hcte] at hrc
      have hmemo := memoExt_minimaxF n total f (1 <<< i ||| st)
        ((sumUsed n st : Int) + (i : Int)) true alpha beta dp
      have hlt : st < 1 <<< i ||| st := lt_setBit i hbitf
      have hnoneR : dpGet (minimaxF n total f (1 <<< i ||| st)
          ((sumUsed n st : Int) + (i : Int)) true alpha beta dp).2 st = none := by
        rw [hmemo.1 st hlt]; exact hnone
      have hvv : min value (minimaxF n total f (1 <<< i ||| st)
          ((sumUsed n st : Int) + (i : Int)) true alpha beta dp).1 = 0 := by
        rw [hrc.1]
        rcases hval with ⟨h2, _⟩ | h1
        · rw [h2]; decide
        · rw [h1]; decide
      rw [hvv]
      by_cases hprune : min beta 0 ≤ alpha
      · rw [if_pos hprune]
        exact ⟨rfl, invA_dpSet hrc.2 hnoneR rfl⟩
      · rw [if_neg hprune]
        exact ih htail 0 (Or.inr rfl) alpha (min beta 0) _ hrc.2 hnoneR

/-- Regime A main lemma: under any window and either player, the memoized
alpha-beta search returns `0` on every reachable status. -/
theorem solveA (n : Nat) (total : Int)
    (hS : (sumUsed n (allUsedMask n) : Int) < total) :
    ∀ (k : Nat) (st : Nat), MaskOnly n st → freeCount n st ≤ k →
      ∀ (fuel : Nat), freeCount n st ≤ fuel →
      ∀ (mx : Bool) (alpha beta : Int) (dp : Nat), InvA dp →
      (minimaxF n total fuel st (sumUsed n st : Int) mx alpha beta dp).1 = 0 ∧
      InvA (minimaxF n total fuel st (sumUsed n st : Int) mx alpha beta dp).2 := by
  intro k
  induction k with
  | zero =>
    intro st hm hk fuel hf mx alpha beta dp hInv
    have hmask := eq_mask_of_freeCount_zero hm (by omega)
    subst hmask
    cases h : dpGet dp (allUsedMask n) with
    | some v =>
      rw [minimaxF_of_hit h]
      exact ⟨hInv _ v h, hInv⟩
    | none =>
      rw [minimaxF_of_terminal h]
      exact ⟨rfl, hInv⟩
  | succ k ih =>
    intro st hm hk fuel hf mx alpha beta dp hInv
    cases h : dpGet dp st with
    | some v =>
      rw [minimaxF_of_hit h]
      exact ⟨hInv _ v h, hInv⟩
    | none =>
      by_cases hne : st = allUsedMask n
      · subst hne
        rw [minimaxF_of_terminal h]
        exact ⟨rfl, hInv⟩
      · have hfc := freeCount_pos hm hne
        obtain ⟨g, hg⟩ : ∃ g, freeCount n st = g + 1 :=
          ⟨freeCount n st - 1, by omega⟩
        cases fuel with
        | zero => omega
        | succ f =>
          have hgc0 : ∀ i, 1 ≤ i → i ≤ n → st.testBit i = false →
              freeCount n (1 <<< i ||| st) = g := by
            intro i h1 h2 hb
            have := freeCount_setBit h1 h2 hb
            omega
          have hrec : ∀ st', MaskOnly n st' → freeCount n st' = g →
              ∀ (m : Bool) (a b : Int) (d : Nat), InvA d →
              (minimaxF n total f st' (sumUsed n st' : Int) m a b d).1 = 0 ∧
              InvA (minimaxF n total f st' (sumUsed n st' : Int) m a b d).2 :=
            fun st' hm' hg' m a b d hInv' =>
              ih st' hm' (by omega) f (by omega) m a b d hInv'
          have hsubr : ∀ i ∈ List.range' 1 n, 1 ≤ i ∧ i ≤ n := by
            intro i hi
            have := List.mem_range'_1.mp hi
            omega
          have hfree := exists_free hm hne
          cases mx
          · rw [minimaxF_succ_min h hne]
            exact loopA_min n total hS f g st hm hgc0 hrec (List.range' 1 n)
              hsubr posInfV (Or.inl ⟨rfl, hfree⟩) alpha beta dp hInv h
          · rw [minimaxF_succ_max h hne]
            exact loopA_max n total hS f g st hm hgc0 hrec (List.range' 1 n)
              hsubr negInfV (Or.inl ⟨rfl, hfree⟩) alpha beta dp hInv h

/-! #### Root-level bridges -/

theorem zero_ne_mask {n : Nat} (hn : 1 ≤ n) : (0 : Nat) ≠ allUsedMask n := by
  intro he
  have h1 : (allUsedMask n).testBit 1 = true := by
    rw [testBit_allUsedMask]
    exact decide_eq_true (by omega)
  rw [← he, Nat.zero_testBit] at h1
  cases h1

/-- With a non-positive target, the very first examined pick (`i = 1`) already
triggers the immediate-win shortcut at the root. -/
theorem rootAB_nonpos (n : Nat) (total : Int) (hn : 1 ≤ n) (ht : total ≤ 0) :
    (minimaxF n total n 0 0 true (-1) 1 0).1 = 1 := by
  obtain ⟨m, rfl⟩ : ∃ m, n = m + 1 := ⟨n - 1, by omega⟩
  have hnone : dpGet 0 0 = none := dpGet_zero 0
  have hne := zero_ne_mask hn
  rw [minimaxF_succ_max hnone hne]
  have hr : List.range' 1 (m + 1) = 1 :: List.range' 2 m := rfl
  rw [hr, loopMax]
  have hbit : ¬ Nat.testBit 0 1 = true := by
    rw [Nat.zero_testBit]; simp
  rw [if_neg hbit]
  have hshort : total ≤ (0 : Int) + ((1 : Nat) : Int) := by push_cast; omega
  rw [if_pos hshort]

theorem refLoopMax_root_nonpos {rec : Nat → Int → Bool → Int} {total : Int}
    (ht : total ≤ 0) :
    ∀ (l : List Nat), (∀ i ∈ l, 1 ≤ i) →
      ∀ acc : Int, (acc = 1 ∨ (acc = -2 ∧ l ≠ [])) →
      refLoopMax rec total 0 0 l acc = 1 := by
  intro l
  induction l with
  | nil =>
    intro _ acc hacc
    rcases hacc with h | ⟨_, hne⟩
    · rw [refLoopMax, h]
    · exact absurd rfl hne
  | cons j t ih =>
    intro hsub acc hacc
    have htl := fun i hi => hsub i (List.mem_cons_of_mem j hi)
    have hj1 := hsub j (List.mem_cons_self j t)
    rw [refLoopMax]
    have hbit : ¬ Nat.testBit 0 j = true := by
      rw [Nat.zero_testBit]; simp
    rw [if_neg hbit]
    have hshort : total ≤ (0 : Int) + (j : Int) := by
      have : (1 : Int) ≤ (j : Int) := by exact_mod_cast hj1
      omega
    rw [if_pos hshort]
    apply ih htl
    left
    rcases hacc with h | ⟨h, _⟩ <;> rw [h] <;> decide

theorem rootRef_nonpos (n : Nat) (total : Int) (hn : 1 ≤ n) (ht : total ≤ 0) :
    minimaxRefF n total n 0 0 true = 1 := by
  obtain ⟨m, rfl⟩ : ∃ m, n = m + 1 := ⟨n - 1, by omega⟩
  have hne := zero_ne_mask hn
  rw [minimaxRefF_succ_max hne]
  apply refLoopMax_root_nonpos ht
  · intro i hi
    exact (List.mem_range'_1.mp hi).1
  · right
    refine ⟨rfl, ?_⟩
    intro he
    have := congrArg List.length he
    simp at this

/-- Regime B at the root. -/
theorem root_eq_refVal_B (n : Nat) (total : Int) (h0 : 0 < total)
    (hS : total ≤ (sumUsed n (allUsedMask n) : Int)) (fuel : Nat)
    (hf : n ≤ fuel) :
    (minimaxF n total fuel 0 0 true (-1) 1 0).1 = refVal n total 0 true := by
  have hct : ((sumUsed n 0 : Nat) : Int) < total := by
    rw [sumUsed_zero]; push_cast; omega
  have h := (solveB n total hS n 0 (maskOnly_zero n) hct
    (by rw [freeCount_zero]) fuel (by rw [freeCount_zero]; exact hf)
    0 (invB_empty n total)).1
  rw [sumUsed_zero n, pMax_zero n] at h
  simpa using h

/-- Regime A at the root. -/
theorem root_zero_A (n : Nat) (total : Int)
    (hS : (sumUsed n (allUsedMask n) : Int) < total) (fuel : Nat)
    (hf : n ≤ fuel) :
    (minimaxF n total fuel 0 0 true (-1) 1 0).1 = 0 := by
  have h := (solveA n total hS n 0 (maskOnly_zero n)
    (by rw [freeCount_zero]) fuel (by rw [freeCount_zero]; exact hf)
    true (-1) 1 0 invA_empty).1
  rw [sumUsed_zero n] at h
  simpa using h

theorem rootRef_zero_A (n : Nat) (total : Int)
    (hS : (sumUsed n (allUsedMask n) : Int) < total) :
    minimaxRefF n total n 0 0 true = 0 := by
  have h := refA n total hS n 0 (maskOnly_zero n) (by rw [freeCount_zero]) true
  rw [refVal, freeCount_zero, sumUsed_zero] at h
  simpa using h

/-- The running maximum reaches `1` as soon as some examined move triggers the
immediate-win shortcut, provided no move value exceeds `1`. -/
theorem refLoopMax_hit_one {rec : Nat → Int → Bool → Int} {total : Int}
    {st : Nat} {ct : Int} :
    ∀ (rest : List Nat),
      (∀ i ∈ rest, st.testBit i = false → ¬ total ≤ ct + (i : Int) →
        rec (1 <<< i ||| st) (ct + (i : Int)) false ≤ 1) →
      ∀ acc : Int, acc ≤ 1 →
      (∃ i₀ ∈ rest, st.testBit i₀ = false ∧ total ≤ ct + (i₀ : Int)) →
      refLoopMax rec total st ct rest acc = 1 := by
  intro rest
  induction rest with
  | nil =>
    intro _ acc _ hex
    obtain ⟨i₀, hi₀, _⟩ := hex
    cases hi₀
  | cons j t ih =>
    intro hb acc hacc hex
    have hbt := fun i hi => hb i (List.mem_cons_of_mem j hi)
    rw [refLoopMax]
    by_cases hbit : st.testBit j
    · rw [if_pos hbit]
      apply ih hbt acc hacc
      obtain ⟨i₀, hi₀, hfree, hsh⟩ := hex
      rcases List.mem_cons.mp hi₀ with hij | hit
      · subst hij; rw [hbit] at hfree; cases hfree
      · exact ⟨i₀, hit, hfree, hsh⟩
    · rw [if_neg hbit]
      have hbitf : st.testBit j = false := by
        revert hbit; cases st.testBit j <;> simp
      by_cases hshort : total ≤ ct + (j : Int)
      · rw [if_pos hshort]
        have hm1 : max acc 1 = 1 := by omega
        rw [hm1]
        apply refLoopMax_acc_one t hbt
      · rw [if_neg hshort]
        have hc := hb j (List.mem_cons_self j t) hbitf hshort
        apply ih hbt _ (by omega)
        obtain ⟨i₀, hi₀, hfree, hsh⟩ := hex
        rcases List.mem_cons.mp hi₀ with hij | hit
        · subst hij; exact absurd hsh hshort
        · exact ⟨i₀, hit, hfree, hsh⟩

/-- With `0 < desiredTotal ≤ n`, the reference root value is a first-player
win: the pick `i = desiredTotal` wins immediately, and no move value exceeds
`1`. -/
theorem refRoot_one (n : Nat) (total : Int) (hn : 1 ≤ n) (h0 : 0 < total)
    (htn : total ≤ (n : Int)) : refVal n total 0 true = 1 := by
  have hS : total ≤ (sumUsed n (allUsedMask n) : Int) := by
    have h1 : (n : Int) ≤ (sumUsed n (allUsedMask n) : Int) := by
      rw [sumUsed_mask]
      exact_mod_cast le_sum_range n hn
    omega
  obtain ⟨m, hm⟩ : ∃ m, n = m + 1 := ⟨n - 1, by omega⟩
  have hne := zero_ne_mask hn
  rw [refVal, freeCount_zero, sumUsed_zero, hm, minimaxRefF_succ_max (hm ▸ hne)]
  have hcast : ((0 : Nat) : Int) = 0 := by norm_num
  rw [hcast]
  apply refLoopMax_hit_one
  · intro i hi hbitf hshort
    have hr := List.mem_range'_1.mp hi
    have hj1 : 1 ≤ i := hr.1
    have hjn : i ≤ m + 1 := by omega
    have hmc := maskOnly_setBit (maskOnly_zero (m + 1)) hj1 hjn
    have hcte : (0 : Int) + (i : Int) =
        ((sumUsed (m + 1) (1 <<< i ||| 0)) : Int) := by
      rw [sumUsed_setBit hj1 hjn (Nat.zero_testBit i), sumUsed_zero]
      push_cast; ring
    have hctc : (sumUsed (m + 1) (1 <<< i ||| 0) : Int) < total := by
      rw [← hcte]; omega
    have hgc : freeCount (m + 1) (1 <<< i ||| 0) = m := by
      have := freeCount_setBit hj1 hjn (Nat.zero_testBit i)
      rw [freeCount_zero] at this
      omega
    have hmem := refVal_mem (m + 1) total (hm ▸ hS)
      (freeCount (m + 1) (1 <<< i ||| 0)) (1 <<< i ||| 0) hmc le_rfl hctc false
    rw [refVal, hgc] at hmem
    rw [hcte]
    rcases hmem with h | h <;> rw [h] <;> decide
  · decide
  · refine ⟨total.toNat, ?_, Nat.zero_testBit _, ?_⟩
    · apply List.mem_range'_1.mpr
      omega
    · rw [Int.toNat_of_nonneg (by omega)]
      omega

/-! #### The call tree of the number game's search -/

/-- The recursive calls reachable from the root call `minimax(0, 0, True, -1, 1)`
made by `canIWin`: a child call is made for a clear bit `i ∈ 1..n` whose pick
does not reach the target (the search recurses only when
`currentTotal + i < desiredTotal`). -/
inductive Reach (n : Nat) (total : Int) : Nat → Int → Bool → Prop
  | root : Reach n total 0 0 true
  | step : ∀ (st : Nat) (ct : Int) (mx : Bool) (i : Nat),
      Reach n total st ct mx → 1 ≤ i → i ≤ n → st.testBit i = false →
      ct + (i : Int) < total →
      Reach n total (1 <<< i ||| st) (ct + (i : Int)) (!mx)

end Blog

namespace Blog

/-! ### Claim theorems for the number-selection game -/

/-- C1: for every valid input (`maxChoosableInteger ≥ 1`, any `desiredTotal`),
the Value returned by the alpha-beta-pruned, memoized minimax at the root
equals the Value computed by the reference exhaustive minimax (no pruning, no
memoization) on the same root state. -/
theorem c1_pruning_memoization_equiv (n : Nat) (total : Int) (hn : 1 ≤ n) :
    (minimaxF n total n 0 0 true (-1) 1 0).1 = minimaxRefF n total n 0 0 true := by
  rcases le_or_lt total 0 with h0 | h0
  · rw [rootAB_nonpos n total hn h0, rootRef_nonpos n total hn h0]
  · rcases le_or_lt total ((sumUsed n (allUsedMask n) : Nat) : Int) with hS | hS
    · rw [root_eq_refVal_B n total h0 hS n le_rfl]
      rw [refVal, freeCount_zero, sumUsed_zero]
      simp
    · rw [root_zero_A n total hS n le_rfl, rootRef_zero_A n total hS]

theorem c1_witness :
    1 ≤ 3 ∧ (minimaxF 3 5 3 0 0 true (-1) 1 0).1 = minimaxRefF 3 5 3 0 0 true :=
  ⟨by decide, c1_pruning_memoization_equiv 3 5 (by decide)⟩

/-- C2 (as stated) is false on the code: for `maxChoosableInteger = 10`,
`desiredTotal = 11`, `canIWin` returns `False` — whatever the first player
picks, the second player answers `11 - i` and reaches the target exactly. -/
theorem c2_counterexample : canIWin 10 11 = false := by decide

/-- C2 amended: for `maxChoosableInteger = 10`, `desiredTotal = 11`, the root
call `minimax(0, 0, True, -1, 1)` evaluates to `-1` (the second player forces
the win), so `canIWin` returns `False`. -/
theorem c2_amended :
    (minimaxF 10 11 10 0 0 true (-1) 1 0).1 = -1 ∧ canIWin 10 11 = false := by
  constructor
  · decide
  · decide

/-- C4 (as stated) is false on the code: the terminal-draw branch
(`if status == self.allUsed: return 0`) returns the draw value `0` but does
*not* store it — after the call the memo has no entry under the terminal key
(here `n = 1`, `desiredTotal = 5`, terminal status `allUsed = 2`). -/
theorem c4_counterexample :
    (minimaxF 1 5 1 2 1 false (-1) 1 0).1 = 0 ∧
    dpGet (minimaxF 1 5 1 2 1 false (-1) 1 0).2 (allUsedMask 1) = none := by
  constructor
  · decide
  · decide

/-- C4 amended: called on the terminal status (all integers used, no winner),
`minimax` returns the draw value `0` and leaves the memo table unchanged — in
particular it does not store the value under the terminal key. -/
theorem c4_terminal_draw (n : Nat) (total : Int) (fuel : Nat) (ct : Int)
    (mx : Bool) (alpha beta : Int) (dp : Nat)
    (h : dpGet dp (allUsedMask n) = none) :
    minimaxF n total fuel (allUsedMask n) ct mx alpha beta dp = (0, dp) :=
  minimaxF_of_terminal h

theorem c4_witness :
    dpGet 0 (allUsedMask 1) = none ∧
    minimaxF 1 5 1 (allUsedMask 1) 1 false (-1) 1 0 = (0, 0) :=
  ⟨by decide, c4_terminal_draw 1 5 1 1 false (-1) 1 0 (by decide)⟩

/-- C8: the number game's recursion terminates: setting a previously clear bit
`i ∈ 1..n` strictly increases the number of used integers, and the root
computation is unchanged by any recursion-depth budget of at least
`maxChoosableInteger` — the recursion depth is bounded by `n`. -/
theorem c8_termination (n : Nat) (total : Int) :
    (∀ (st i : Nat), 1 ≤ i → i ≤ n → st.testBit i = false →
      usedCount n (1 <<< i ||| st) = usedCount n st + 1) ∧
    (∀ fuel, n ≤ fuel →
      minimaxF n total fuel 0 0 true (-1) 1 0 =
        minimaxF n total n 0 0 true (-1) 1 0) := by
  constructor
  · intro st i h1 h2 hb
    exact usedCount_setBit h1 h2 hb
  · intro fuel hf
    exact minimaxF_fuel_eq n total n 0 (maskOnly_zero n)
      (by rw [freeCount_zero]) fuel n (by rw [freeCount_zero]; exact hf)
      (by rw [freeCount_zero]) 0 true (-1) 1 0

theorem c8_witness :
    usedCount 2 (1 <<< 1 ||| 0) = usedCount 2 0 + 1 ∧
    minimaxF 2 5 7 0 0 true (-1) 1 0 = minimaxF 2 5 2 0 0 true (-1) 1 0 :=
  ⟨(c8_termination 2 5).1 0 1 (by decide) (by decide) (by decide),
   (c8_termination 2 5).2 7 (by decide)⟩

/-- C9: in every recursive call reachable from the root call made by
`canIWin`, the `currentTotal` argument is the sum of the integers marked used
in `status` (all of which lie in `1..n`), and `isMaxPlayer` holds exactly when
an even number of integers is used — so the memo key (`status` alone)
determines the position being evaluated. -/
theorem c9_invariant (n : Nat) (total : Int) (st : Nat) (ct : Int) (mx : Bool)
    (h : Reach n total st ct mx) :
    ct = (sumUsed n st : Int) ∧ mx = pMax n st ∧ MaskOnly n st := by
  induction h with
  | root =>
    refine ⟨?_, ?_, maskOnly_zero n⟩
    · rw [sumUsed_zero]; simp
    · rw [pMax_zero]
  | step st' ct' mx' i hre h1 h2 hb hlt ih =>
    obtain ⟨ihct, ihmx, ihm⟩ := ih
    refine ⟨?_, ?_, maskOnly_setBit ihm h1 h2⟩
    · rw [sumUsed_setBit h1 h2 hb]; push_cast; omega
    · rw [pMax_setBit h1 h2 hb, ihmx]

theorem c9_witness :
    (1 : Int) = (sumUsed 2 2 : Int) ∧ false = pMax 2 2 ∧ MaskOnly 2 2 := by
  have h0 : Reach 2 10 0 0 true := Reach.root
  have h1 := Reach.step 0 0 true 1 h0 (by decide) (by decide) (by decide)
    (by decide)
  have h2 : Reach 2 10 2 1 false := h1
  exact c9_invariant 2 10 2 1 false h2

/-- C10: whenever `desiredTotal ≤ maxChoosableInteger` (including non-positive
targets), `canIWin` returns `True`: either the very first examined pick
already reaches the target, or the pick `i = desiredTotal` does, and the root
maximizing loop returns `1`. -/
theorem c10_small_target (n : Nat) (total : Int) (hn : 1 ≤ n)
    (ht : total ≤ (n : Int)) : canIWin n total = true := by
  rw [canIWin]
  rcases le_or_lt total 0 with h0 | h0
  · rw [rootAB_nonpos n total hn h0]
    rfl
  · have hS : total ≤ (sumUsed n (allUsedMask n) : Int) := by
      have hsum : (n : Int) ≤ (sumUsed n (allUsedMask n) : Int) := by
        rw [sumUsed_mask]
        exact_mod_cast le_sum_range n hn
      omega
    rw [root_eq_refVal_B n total h0 hS n le_rfl]
    rw [refRoot_one n total hn h0 ht]
    rfl

theorem c10_witness : 1 ≤ 3 ∧ (2 : Int) ≤ ((3 : Nat) : Int) ∧ canIWin 3 2 = true :=
  ⟨by decide, by decide, c10_small_target 3 2 (by decide) (by decide)⟩

/-! ### Placement game (`02_connect_n_gym/connect_n_gym/PlannedStrategy.py`)

`PlannedMinimaxStrategy` searches over board statuses (`game.getStatus()`,
N×N nested tuples of cell values), memoizing into the dict `self.dpMap` under
all four rotational keys.  The board/game classes (`ConnectNGame`, the
`Strategy` base) are external collaborators (spec §1), so the game-state
adapter is kept abstract: every theorem below holds for every adapter. -/

/-- A board status: the N×N grid as nested tuples of cell values (ints). -/
abbrev Board := List (List Int)

/-- Modelled from the spec: `ConnectNGame.AVAILABLE`, the "available/empty"
cell-marker constant consumed from the game-state adapter (spec §6); its
concrete value is irrelevant to every claim below. -/
def AVAILABLE : Int := 0

/-- `PlannedMinimaxStrategy.rotate`: builds an N×N board initialized with
`AVAILABLE` and assigns `board[c][N-1-r] = s[r][c]` for all `r, c`.  For
`k ≤ N-1` the unique assignment writing entry `(j, k)` is `c = j`,
`r = N-1-k`, so the result has entry `(j, k) = s[N-1-k][j]`. -/
def rotate (s : Board) : Board :=
  (List.range s.length).map fun j =>
    (List.range s.length).map fun k =>
      (s.getD (s.length - 1 - k) []).getD j AVAILABLE

/-- `PlannedMinimaxStrategy.similarStatus`: starting from `status`, rotate
four times, collecting the board after each rotation (the last element is the
360° rotation). -/
def similarStatus (status : Board) : List Board :=
  [rotate status, rotate (rotate status), rotate (rotate (rotate status)),
   rotate (rotate (rotate (rotate status)))]

/-- A Python value stored in `dpMap`.  `updateDP` is only ever called with the
plain int `ret` computed by `minimax`, while `action` unpacks entries as
`result, _ = self.dpMap[...]`, i.e. expects `(value, move)` 2-tuples; the
dynamic type is made explicit so both readings can be stated. -/
inductive PyVal where
  | ival (v : Int)
  | tup (v : Int) (move : Nat × Nat)
deriving DecidableEq

/-- The memo dictionary `self.dpMap`, as an association list; `updateDP` only
inserts keys that are absent, so the first match is the binding. -/
abbrev DPMap := List (Board × PyVal)

def dpLookup : DPMap → Board → Option PyVal
  | [], _ => none
  | (k, v) :: t, s => if k = s then some v else dpLookup t s

/-- The lookup loop of `minimax`:
`for s in similarStates: if s in self.dpMap: return self.dpMap[s]`. -/
def firstHit (dp : DPMap) : List Board → Option PyVal
  | [] => none
  | k :: t =>
    match dpLookup dp k with
    | some v => some v
    | none => firstHit dp t

/-- `PlannedMinimaxStrategy.updateDP`:
`for s in self.similarStatus(status): if not s in self.dpMap: self.dpMap[s] = result`. -/
def updateDP (dp : DPMap) (status : Board) (result : PyVal) : DPMap :=
  (similarStatus status).foldl
    (fun d s => if (dpLookup d s).isSome then d else (s, result) :: d) dp

/-- Reading a dpMap entry where an int is expected (`minimax`'s lookup return,
`ret = max(ret, result)`): extracts the numeric part. -/
def asInt : PyVal → Int
  | .ival v => v
  | .tup v _ => v

/-- Modelled from the spec: the game-state adapter (`ConnectNGame`, spec §4.1
and §6) — an external collaborator supplying the status, the active player
(`game.currentPlayer == ConnectNGame.PLAYER_A`), the available positions,
`move` (returning the mutated game and the immediate outcome, `None` if the
game continues) and `undo`.  The search is verified for every adapter. -/
structure GameAdapter (σ : Type) where
  getStatus : σ → Board
  playerA : σ → Bool
  avail : σ → List (Nat × Nat)
  moveAt : σ → Nat × Nat → σ × Option Int
  undoMove : σ → σ

/-- The `PLAYER_A` branch of `PlannedMinimaxStrategy.minimax`'s move loop
(`rec` is the recursive call at one less fuel, `thisState` the status read
before the loop; `bestMove` is computed by the source but never returned by
`minimax`, so it is not part of the state):

```
ret = -math.inf
for pos in game.getAvailablePositions():
    result = game.move(*pos)
    if result is None:
        result = self.minimax()
    game.undo()
    ret = max(ret, result)
    if ret == 1:
        self.updateDP(thisState, ret); return 1
self.updateDP(thisState, ret); return ret
```
-/
def ploopMax {σ : Type} (A : GameAdapter σ) (rec : σ → DPMap → Int × DPMap)
    (thisState : Board) : List (Nat × Nat) → σ → Int → DPMap → Int × DPMap
  | [], _, ret, dp => (ret, updateDP dp thisState (.ival ret))
  | pos :: rest, g, ret, dp =>
    let m := A.moveAt g pos
    let rd : Int × DPMap :=
      match m.2 with
      | some v => (v, dp)
      | none => rec m.1 dp
    let g2 := A.undoMove m.1
    let ret' := max ret rd.1
    if ret' = 1 then (1, updateDP rd.2 thisState (.ival ret'))
    else ploopMax A rec thisState rest g2 ret' rd.2

/-- The `PLAYER_B` branch of the move loop (mirror image: running minimum,
early exit at `-1`). -/
def ploopMin {σ : Type} (A : GameAdapter σ) (rec : σ → DPMap → Int × DPMap)
    (thisState : Board) : List (Nat × Nat) → σ → Int → DPMap → Int × DPMap
  | [], _, ret, dp => (ret, updateDP dp thisState (.ival ret))
  | pos :: rest, g, ret, dp =>
    let m := A.moveAt g pos
    let rd : Int × DPMap :=
      match m.2 with
      | some v => (v, dp)
      | none => rec m.1 dp
    let g2 := A.undoMove m.1
    let ret' := min ret rd.1
    if ret' = -1 then (-1, updateDP rd.2 thisState (.ival ret'))
    else ploopMin A rec thisState rest g2 ret' rd.2

/-- `PlannedMinimaxStrategy.minimax` with the memo dict threaded explicitly
and recursion depth driven by `fuel` (the `assert not game.gameOver`
precondition is a programming-error contract per spec §7 and is outside the
model). -/
def minimaxP {σ : Type} (A : GameAdapter σ) : Nat → σ → DPMap → Int × DPMap
  | fuel, g, dp =>
    match firstHit dp (similarStatus (A.getStatus g)) with
    | some v => (asInt v, dp)
    | none =>
      match fuel with
      | 0 => (0, dp)
      | fuel + 1 =>
        if A.playerA g then
          ploopMax A (fun g2 d => minimaxP A fuel g2 d) (A.getStatus g)
            (A.avail g) g negInfV dp
        else
          ploopMin A (fun g2 d => minimaxP A fuel g2 d) (A.getStatus g)
            (A.avail g) g posInfV dp

/-- `result, _ = self.dpMap[game.getStatus()]` inside `action`: a missing key
raises `KeyError`, a non-tuple entry raises `TypeError`; both failure modes
are modelled as `none`. -/
def actionRead (dp : DPMap) (s : Board) : Option (Int × (Nat × Nat)) :=
  match dpLookup dp s with
  | some (.tup v m) => some (v, m)
  | some (.ival _) => none
  | none => none

/-- The `PLAYER_A` loop of `PlannedMinimaxStrategy.action`: apply each move,
read the child entry from the memo as a `(value, move)` pair, undo, track the
running maximum and the best move; a failing read aborts (`none`). -/
def actionLoopMax {σ : Type} (A : GameAdapter σ) (dp : DPMap) :
    List (Nat × Nat) → σ → Int → Option (Nat × Nat) →
      Option (Int × Option (Nat × Nat))
  | [], _, ret, best => some (ret, best)
  | pos :: rest, g, ret, best =>
    let m := A.moveAt g pos
    match actionRead dp (A.getStatus m.1) with
    | none => none
    | some rm =>
      let g2 := A.undoMove m.1
      let ret' := max ret rm.1
      let best' := if ret' = rm.1 then some pos else best
      actionLoopMax A dp rest g2 ret' best'

/-- The `PLAYER_B` loop of `action` (running minimum). -/
def actionLoopMin {σ : Type} (A : GameAdapter σ) (dp : DPMap) :
    List (Nat × Nat) → σ → Int → Option (Nat × Nat) →
      Option (Int × Option (Nat × Nat))
  | [], _, ret, best => some (ret, best)
  | pos :: rest, g, ret, best =>
    let m := A.moveAt g pos
    match actionRead dp (A.getStatus m.1) with
    | none => none
    | some rm =>
      let g2 := A.undoMove m.1
      let ret' := min ret rm.1
      let best' := if ret' = rm.1 then some pos else best
      actionLoopMin A dp rest g2 ret' best'

/-- `PlannedMinimaxStrategy.action` (the `assert not game.gameOver`
precondition is outside the model). -/
def actionP {σ : Type} (A : GameAdapter σ) (dp : DPMap) (g : σ) :
    Option (Int × Option (Nat × Nat)) :=
  if A.playerA g then actionLoopMax A dp (A.avail g) g negInfV none
  else actionLoopMin A dp (A.avail g) g posInfV none

/-! #### Rotation lemmas -/

/-- The cell of a board at row `r`, column `c` (Python `s[r][c]`). -/
def entryB (b : Board) (r c : Nat) : Int := (b.getD r []).getD c AVAILABLE

theorem rotate_length (s : Board) : (rotate s).length = s.length := by
  simp [rotate]

theorem rotate_row_length (s : Board) :
    ∀ row ∈ rotate s, row.length = s.length := by
  intro row hrow
  rw [rotate] at hrow
  obtain ⟨j, _, rfl⟩ := List.mem_map.mp hrow
  simp

theorem rotate_entry (s : Board) {j k : Nat} (hj : j < s.length)
    (hk : k < s.length) :
    entryB (rotate s) j k = entryB s (s.length - 1 - k) j := by
  have hrow : (rotate s).getD j [] = (List.range s.length).map
      (fun k => (s.getD (s.length - 1 - k) []).getD j AVAILABLE) := by
    rw [rotate]
    rw [List.getD_eq_getElem _ _ (by simpa using hj)]
    rw [List.getElem_map, List.getElem_range]
  rw [entryB, hrow]
  rw [List.getD_eq_getElem _ _ (by simpa using hk)]
  rw [List.getElem_map, List.getElem_range]
  rfl

theorem board_ext {a b : Board} {N : Nat} (ha : a.length = N)
    (hb : b.length = N) (har : ∀ row ∈ a, row.length = N)
    (hbr : ∀ row ∈ b, row.length = N)
    (he : ∀ j k, j < N → k < N → entryB a j k = entryB b j k) : a = b := by
  apply List.ext_getElem (by omega)
  intro j h1 h2
  have hjN : j < N := by omega
  have e1 : a[j].length = N := har _ (List.getElem_mem h1)
  have e2 : b[j].length = N := hbr _ (List.getElem_mem h2)
  apply List.ext_getElem (by omega)
  intro k hk1 hk2
  have hkN : k < N := by omega
  have hthis := he j k hjN hkN
  have ea : entryB a j k = a[j][k] := by
    rw [entryB, List.getD_eq_getElem a [] h1, List.getD_eq_getElem _ _ hk1]
  have eb : entryB b j k = b[j][k] := by
    rw [entryB, List.getD_eq_getElem b [] h2, List.getD_eq_getElem _ _ hk2]
  rw [ea, eb] at hthis
  exact hthis

theorem rotate_four (N : Nat) (s : Board) (hlen : s.length = N)
    (hrows : ∀ row ∈ s, row.length = N) :
    rotate (rotate (rotate (rotate s))) = s := by
  have l1 : (rotate s).length = N := by rw [rotate_length, hlen]
  have l2 : (rotate (rotate s)).length = N := by rw [rotate_length, l1]
  have l3 : (rotate (rotate (rotate s))).length = N := by rw [rotate_length, l2]
  have l4 : (rotate (rotate (rotate (rotate s)))).length = N := by
    rw [rotate_length, l3]
  have r4rows : ∀ row ∈ rotate (rotate (rotate (rotate s))), row.length = N := by
    intro row h
    rw [rotate_row_length _ row h, l3]
  apply board_ext l4 hlen r4rows hrows
  intro j k hj hk
  have e4 := rotate_entry (rotate (rotate (rotate s)))
    (show j < (rotate (rotate (rotate s))).length by rw [l3]; exact hj)
    (show k < (rotate (rotate (rotate s))).length by rw [l3]; exact hk)
  rw [l3] at e4
  have e3 := rotate_entry (rotate (rotate s))
    (show N - 1 - k < (rotate (rotate s)).length by rw [l2]; omega)
    (show j < (rotate (rotate s)).length by rw [l2]; exact hj)
  rw [l2] at e3
  have e2 := rotate_entry (rotate s)
    (show N - 1 - j < (rotate s).length by rw [l1]; omega)
    (show N - 1 - k < (rotate s).length by rw [l1]; omega)
  rw [l1] at e2
  have hkk : N - 1 - (N - 1 - k) = k := by omega
  rw [hkk] at e2
  have e1 := rotate_entry s
    (show k < s.length by rw [hlen]; exact hk)
    (show N - 1 - j < s.length by rw [hlen]; omega)
  rw [hlen] at e1
  have hjj : N - 1 - (N - 1 - j) = j := by omega
  rw [hjj] at e1
  rw [e4, e3, e2, e1]

/-! #### Placement memo lemmas -/

theorem dpLookup_insert_pres {dp : DPMap} {s k : Board} {v w : PyVal}
    (h : dpLookup dp s = some w) :
    dpLookup (if (dpLookup dp k).isSome then dp else (k, v) :: dp) s = some w := by
  by_cases hk : (dpLookup dp k).isSome
  · rw [if_pos hk]; exact h
  · rw [if_neg hk, dpLookup]
    by_cases hks : k = s
    · subst hks
      rw [h] at hk
      simp at hk
    · rw [if_neg hks]; exact h

theorem dpLookup_foldl_pres (l : List Board) (v : PyVal) :
    ∀ (dp : DPMap) (s : Board) (w : PyVal), dpLookup dp s = some w →
      dpLookup (l.foldl
        (fun d k => if (dpLookup d k).isSome then d else (k, v) :: d) dp) s =
        some w := by
  induction l with
  | nil => intro dp s w h; exact h
  | cons k t ih =>
    intro dp s w h
    rw [List.foldl_cons]
    exact ih _ s w (dpLookup_insert_pres h)

/-- `updateDP` never rebinds an existing key: it inserts only absent keys. -/
theorem updateDP_pres {dp : DPMap} {status : Board} {v : PyVal} {s : Board}
    {w : PyVal} (h : dpLookup dp s = some w) :
    dpLookup (updateDP dp status v) s = some w :=
  dpLookup_foldl_pres _ v dp s w h

theorem dpLookup_insert_self (dp : DPMap) (k : Board) (v : PyVal) :
    (dpLookup (if (dpLookup dp k).isSome then dp else (k, v) :: dp) k).isSome =
      true := by
  by_cases hk : (dpLookup dp k).isSome
  · rw [if_pos hk]; exact hk
  · rw [if_neg hk, dpLookup, if_pos rfl]
    rfl

theorem dpLookup_foldl_isSome (l : List Board) (v : PyVal) (dp : DPMap)
    (s : Board) (h : (dpLookup dp s).isSome = true) :
    (dpLookup (l.foldl
      (fun d k => if (dpLookup d k).isSome then d else (k, v) :: d) dp) s).isSome
      = true := by
  obtain ⟨w, hw⟩ := Option.isSome_iff_exists.mp h
  rw [dpLookup_foldl_pres l v dp s w hw]
  rfl

/-- After `updateDP`, all four rotational keys of the status are present. -/
theorem updateDP_keys (dp : DPMap) (status : Board) (v : PyVal) :
    ∀ s ∈ similarStatus status,
      (dpLookup (updateDP dp status v) s).isSome = true := by
  rw [updateDP]
  generalize similarStatus status = l
  induction l generalizing dp with
  | nil => intro s hs; cases hs
  | cons k t ih =>
    intro s hs
    rw [List.foldl_cons]
    rcases List.mem_cons.mp hs with rfl | hst
    · exact dpLookup_foldl_isSome t v _ s (dpLookup_insert_self dp s v)
    · exact ih _ s hst

/-- Every exit of the move loop goes through `updateDP` on `thisState`. -/
theorem ploopMax_exit {σ : Type} (A : GameAdapter σ)
    (rec : σ → DPMap → Int × DPMap) (thisState : Board) :
    ∀ (rest : List (Nat × Nat)) (g : σ) (ret : Int) (dp : DPMap),
      ∃ d w, (ploopMax A rec thisState rest g ret dp).2 = updateDP d thisState w := by
  intro rest
  induction rest with
  | nil => intro g ret dp; exact ⟨dp, .ival ret, rfl⟩
  | cons pos rest ih =>
    intro g ret dp
    rw [ploopMax]
    by_cases h1 : max ret (match (A.moveAt g pos).2 with
        | some v => ((v, dp) : Int × DPMap)
        | none => rec (A.moveAt g pos).1 dp).1 = 1
    · rw [if_pos h1]
      exact ⟨_, _, rfl⟩
    · rw [if_neg h1]
      exact ih _ _ _

theorem ploopMin_exit {σ : Type} (A : GameAdapter σ)
    (rec : σ → DPMap → Int × DPMap) (thisState : Board) :
    ∀ (rest : List (Nat × Nat)) (g : σ) (ret : Int) (dp : DPMap),
      ∃ d w, (ploopMin A rec thisState rest g ret dp).2 = updateDP d thisState w := by
  intro rest
  induction rest with
  | nil => intro g ret dp; exact ⟨dp, .ival ret, rfl⟩
  | cons pos rest ih =>
    intro g ret dp
    rw [ploopMin]
    by_cases h1 : min ret (match (A.moveAt g pos).2 with
        | some v => ((v, dp) : Int × DPMap)
        | none => rec (A.moveAt g pos).1 dp).1 = -1
    · rw [if_pos h1]
      exact ⟨_, _, rfl⟩
    · rw [if_neg h1]
      exact ih _ _ _

theorem minimaxP_hit {σ : Type} {A : GameAdapter σ} {fuel : Nat} {g : σ}
    {dp : DPMap} {v : PyVal}
    (h : firstHit dp (similarStatus (A.getStatus g)) = some v) :
    minimaxP A fuel g dp = (asInt v, dp) := by
  cases fuel <;> simp [minimaxP, h]

theorem minimaxP_succ_miss {σ : Type} {A : GameAdapter σ} {fuel : Nat} {g : σ}
    {dp : DPMap} (h : firstHit dp (similarStatus (A.getStatus g)) = none) :
    minimaxP A (fuel + 1) g dp =
      if A.playerA g then
        ploopMax A (fun g2 d => minimaxP A fuel g2 d) (A.getStatus g)
          (A.avail g) g negInfV dp
      else
        ploopMin A (fun g2 d => minimaxP A fuel g2 d) (A.getStatus g)
          (A.avail g) g posInfV dp := by
  simp [minimaxP, h]

theorem ploopMax_pres {σ : Type} (A : GameAdapter σ)
    {rec : σ → DPMap → Int × DPMap}
    (hrec : ∀ (g : σ) (d : DPMap) (s : Board) (w : PyVal),
      dpLookup d s = some w → dpLookup (rec g d).2 s = some w)
    (thisState : Board) :
    ∀ (rest : List (Nat × Nat)) (g : σ) (ret : Int) (dp : DPMap)
      (s : Board) (w : PyVal), dpLookup dp s = some w →
      dpLookup (ploopMax A rec thisState rest g ret dp).2 s = some w := by
  intro rest
  induction rest with
  | nil => intro g ret dp s w h; exact updateDP_pres h
  | cons pos rest ih =>
    intro g ret dp s w h
    rw [ploopMax]
    cases hm2 : (A.moveAt g pos).2 with
    | some v =>
      simp only []
      by_cases h1 : max ret v = 1
      · rw [if_pos h1]
        exact updateDP_pres h
      · rw [if_neg h1]
        exact ih _ _ _ s w h
    | none =>
      simp only []
      have hchild := hrec (A.moveAt g pos).1 dp s w h
      by_cases h1 : max ret (rec (A.moveAt g pos).1 dp).1 = 1
      · rw [if_pos h1]
        exact updateDP_pres hchild
      · rw [if_neg h1]
        exact ih _ _ _ s w hchild

theorem ploopMin_pres {σ : Type} (A : GameAdapter σ)
    {rec : σ → DPMap → Int × DPMap}
    (hrec : ∀ (g : σ) (d : DPMap) (s : Board) (w : PyVal),
      dpLookup d s = some w → dpLookup (rec g d).2 s = some w)
    (thisState : Board) :
    ∀ (rest : List (Nat × Nat)) (g : σ) (ret : Int) (dp : DPMap)
      (s : Board) (w : PyVal), dpLookup dp s = some w →
      dpLookup (ploopMin A rec thisState rest g ret dp).2 s = some w := by
  intro rest
  induction rest with
  | nil => intro g ret dp s w h; exact updateDP_pres h
  | cons pos rest ih =>
    intro g ret dp s w h
    rw [ploopMin]
    cases hm2 : (A.moveAt g pos).2 with
    | some v =>
      simp only []
      by_cases h1 : min ret v = -1
      · rw [if_pos h1]
        exact updateDP_pres h
      · rw [if_neg h1]
        exact ih _ _ _ s w h
    | none =>
      simp only []
      have hchild := hrec (A.moveAt g pos).1 dp s w h
      by_cases h1 : min ret (rec (A.moveAt g pos).1 dp).1 = -1
      · rw [if_pos h1]
        exact updateDP_pres hchild
      · rw [if_neg h1]
        exact ih _ _ _ s w hchild

/-- The placement search never rebinds an existing memo entry. -/
theorem minimaxP_pres {σ : Type} (A : GameAdapter σ) :
    ∀ (fuel : Nat) (g : σ) (dp : DPMap) (s : Board) (w : PyVal),
      dpLookup dp s = some w →
      dpLookup (minimaxP A fuel g dp).2 s = some w := by
  intro fuel
  induction fuel with
  | zero =>
    intro g dp s w h
    cases hh : firstHit dp (similarStatus (A.getStatus g)) with
    | some v => rw [minimaxP_hit hh]; exact h
    | none => simp [minimaxP, hh]; exact h
  | succ fuel ih =>
    intro g dp s w h
    cases hh : firstHit dp (similarStatus (A.getStatus g)) with
    | some v => rw [minimaxP_hit hh]; exact h
    | none =>
      rw [minimaxP_succ_miss hh]
      by_cases hp : A.playerA g = true
      · rw [if_pos hp]
        exact ploopMax_pres A (fun g2 d => ih g2 d) (A.getStatus g)
          (A.avail g) g negInfV dp s w h
      · rw [if_neg hp]
        exact ploopMin_pres A (fun g2 d => ih g2 d) (A.getStatus g)
          (A.avail g) g posInfV dp s w h

/-! #### The search stores only bare ints in `dpMap` -/

/-- Every entry of the memo dict is a plain int (no `(value, move)` pair). -/
def IvalOnly (dp : DPMap) : Prop :=
  ∀ s w, dpLookup dp s = some w → ∃ z, w = PyVal.ival z

theorem ivalOnly_nil : IvalOnly [] := by
  intro s w h
  cases h

theorem foldl_ins_ivalOnly (r : Int) :
    ∀ (l : List Board) (dp : DPMap), IvalOnly dp →
      IvalOnly (l.foldl
        (fun d k => if (dpLookup d k).isSome then d else (k, PyVal.ival r) :: d)
        dp) := by
  intro l
  induction l with
  | nil => intro dp h; exact h
  | cons k t ih =>
    intro dp h
    rw [List.foldl_cons]
    apply ih
    intro s w hw
    by_cases hk : (dpLookup dp k).isSome
    · rw [if_pos hk] at hw
      exact h s w hw
    · rw [if_neg hk, dpLookup] at hw
      by_cases hks : k = s
      · rw [if_pos hks] at hw
        injection hw with hw2
        exact ⟨r, hw2.symm⟩
      · rw [if_neg hks] at hw
        exact h s w hw

theorem updateDP_ivalOnly {dp : DPMap} {status : Board} {r : Int}
    (h : IvalOnly dp) : IvalOnly (updateDP dp status (.ival r)) := by
  rw [updateDP]
  exact foldl_ins_ivalOnly r _ dp h

theorem ploopMax_ivalOnly {σ : Type} (A : GameAdapter σ)
    {rec : σ → DPMap → Int × DPMap}
    (hrec : ∀ (g : σ) (d : DPMap), IvalOnly d → IvalOnly (rec g d).2)
    (thisState : Board) :
    ∀ (rest : List (Nat × Nat)) (g : σ) (ret : Int) (dp : DPMap),
      IvalOnly dp → IvalOnly (ploopMax A rec thisState rest g ret dp).2 := by
  intro rest
  induction rest with
  | nil => intro g ret dp h; exact updateDP_ivalOnly h
  | cons pos rest ih =>
    intro g ret dp h
    rw [ploopMax]
    cases hm2 : (A.moveAt g pos).2 with
    | some v =>
      simp only []
      by_cases h1 : max ret v = 1
      · rw [if_pos h1]
        exact updateDP_ivalOnly h
      · rw [if_neg h1]
        exact ih _ _ _ h
    | none =>
      simp only []
      have hchild := hrec (A.moveAt g pos).1 dp h
      by_cases h1 : max ret (rec (A.moveAt g pos).1 dp).1 = 1
      · rw [if_pos h1]
        exact updateDP_ivalOnly hchild
      · rw [if_neg h1]
        exact ih _ _ _ hchild

theorem ploopMin_ivalOnly {σ : Type} (A : GameAdapter σ)
    {rec : σ → DPMap → Int × DPMap}
    (hrec : ∀ (g : σ) (d : DPMap), IvalOnly d → IvalOnly (rec g d).2)
    (thisState : Board) :
    ∀ (rest : List (Nat × Nat)) (g : σ) (ret : Int) (dp : DPMap),
      IvalOnly dp → IvalOnly (ploopMin A rec thisState rest g ret dp).2 := by
  intro rest
  induction rest with
  | nil => intro g ret dp h; exact updateDP_ivalOnly h
  | cons pos rest ih =>
    intro g ret dp h
    rw [ploopMin]
    cases hm2 : (A.moveAt g pos).2 with
    | some v =>
      simp only []
      by_cases h1 : min ret v = -1
      · rw [if_pos h1]
        exact updateDP_ivalOnly h
      · rw [if_neg h1]
        exact ih _ _ _ h
    | none =>
      simp only []
      have hchild := hrec (A.moveAt g pos).1 dp h
      by_cases h1 : min ret (rec (A.moveAt g pos).1 dp).1 = -1
      · rw [if_pos h1]
        exact updateDP_ivalOnly hchild
      · rw [if_neg h1]
        exact ih _ _ _ hchild

theorem minimaxP_ivalOnly {σ : Type} (A : GameAdapter σ) :
    ∀ (fuel : Nat) (g : σ) (dp : DPMap), IvalOnly dp →
      IvalOnly (minimaxP A fuel g dp).2 := by
  intro fuel
  induction fuel with
  | zero =>
    intro g dp h
    cases hh : firstHit dp (similarStatus (A.getStatus g)) with
    | some v => rw [minimaxP_hit hh]; exact h
    | none => simp [minimaxP, hh]; exact h
  | succ fuel ih =>
    intro g dp h
    cases hh : firstHit dp (similarStatus (A.getStatus g)) with
    | some v => rw [minimaxP_hit hh]; exact h
    | none =>
      rw [minimaxP_succ_miss hh]
      by_cases hp : A.playerA g = true
      · rw [if_pos hp]
        exact ploopMax_ivalOnly A (fun g2 d => ih g2 d) (A.getStatus g)
          (A.avail g) g negInfV dp h
      · rw [if_neg hp]
        exact ploopMin_ivalOnly A (fun g2 d => ih g2 d) (A.getStatus g)
          (A.avail g) g posInfV dp h

/-- Every pair-read from an ints-only memo fails (Python: `KeyError` on a
missing key, `TypeError` unpacking an int). -/
theorem actionRead_none {dp : DPMap} (h : IvalOnly dp) (s : Board) :
    actionRead dp s = none := by
  rw [actionRead]
  cases hh : dpLookup dp s with
  | none => rfl
  | some w =>
    obtain ⟨z, rfl⟩ := h s w hh
    rfl

theorem actionP_none {σ : Type} (A : GameAdapter σ) {dp : DPMap}
    (h : IvalOnly dp) {g : σ} (hav : A.avail g ≠ []) :
    actionP A dp g = none := by
  rw [actionP]
  cases hav2 : A.avail g with
  | nil => exact absurd hav2 hav
  | cons pos rest =>
    by_cases hp : A.playerA g = true
    · rw [if_pos hp, actionLoopMax]
      rw [actionRead_none h]
    · rw [if_neg hp, actionLoopMin]
      rw [actionRead_none h]

/-- A minimal concrete adapter over the unit game state, used to instantiate
the adapter-generic theorems at a computable point. -/
def unitAdapter : GameAdapter Unit where
  getStatus := fun _ => [[5]]
  playerA := fun _ => true
  avail := fun _ => [(0, 0)]
  moveAt := fun g _ => (g, some 0)
  undoMove := fun g => g

end Blog

namespace Blog

/-! ### Claim theorems for the placement game -/

/-- C3 is false on the code (code bug): `minimax` populates `dpMap` through
`updateDP` with the bare int `ret`, never a `(value, move)` pair, so every
per-child read `result, _ = self.dpMap[game.getStatus()]` performed by
`action` fails — after the constructor's precomputation (which starts from an
empty dict), `action` aborts on any state with at least one available
position instead of returning `(value, move)`. -/
theorem c3_action_read_fails {σ : Type} (A : GameAdapter σ) :
    (∀ (fuel : Nat) (g0 : σ) (s : Board) (w : PyVal),
      dpLookup (minimaxP A fuel g0 []).2 s = some w → ∃ z, w = PyVal.ival z) ∧
    (∀ (fuel : Nat) (g0 g : σ), A.avail g ≠ [] →
      actionP A (minimaxP A fuel g0 []).2 g = none) := by
  constructor
  · intro fuel g0 s w h
    exact minimaxP_ivalOnly A fuel g0 [] ivalOnly_nil s w h
  · intro fuel g0 g hav
    exact actionP_none A (minimaxP_ivalOnly A fuel g0 [] ivalOnly_nil) hav

theorem c3_witness :
    (∃ z, PyVal.ival 0 = PyVal.ival z) ∧
    actionP unitAdapter (minimaxP unitAdapter 1 () []).2 () = none :=
  ⟨(c3_action_read_fails unitAdapter).1 1 () [[5]] (PyVal.ival 0) (by decide),
   (c3_action_read_fails unitAdapter).2 1 () () (by decide)⟩

/-- C5: the placement `minimax` (a) returns the stored value, with no
recursion and no memo write, as soon as any of the four rotational keys of
the current status is present; and (b) after fully solving a status (lookup
miss), all four rotational keys of that status are present in the memo. -/
theorem c5_lookup_store {σ : Type} (A : GameAdapter σ) :
    (∀ (fuel : Nat) (g : σ) (dp : DPMap) (v : PyVal),
      firstHit dp (similarStatus (A.getStatus g)) = some v →
      minimaxP A fuel g dp = (asInt v, dp)) ∧
    (∀ (fuel : Nat) (g : σ) (dp : DPMap),
      firstHit dp (similarStatus (A.getStatus g)) = none →
      ∀ s ∈ similarStatus (A.getStatus g),
        (dpLookup (minimaxP A (fuel + 1) g dp).2 s).isSome = true) := by
  constructor
  · intro fuel g dp v h
    exact minimaxP_hit h
  · intro fuel g dp hmiss s hs
    rw [minimaxP_succ_miss hmiss]
    by_cases hp : A.playerA g = true
    · rw [if_pos hp]
      obtain ⟨d, w, he⟩ := ploopMax_exit A (fun g2 d => minimaxP A fuel g2 d)
        (A.getStatus g) (A.avail g) g negInfV dp
      rw [he]
      exact updateDP_keys d (A.getStatus g) w s hs
    · rw [if_neg hp]
      obtain ⟨d, w, he⟩ := ploopMin_exit A (fun g2 d => minimaxP A fuel g2 d)
        (A.getStatus g) (A.avail g) g posInfV dp
      rw [he]
      exact updateDP_keys d (A.getStatus g) w s hs

theorem c5_witness :
    minimaxP unitAdapter 3 () [([[5]], PyVal.ival 7)] =
      (7, [([[5]], PyVal.ival 7)]) ∧
    ∀ s ∈ similarStatus (unitAdapter.getStatus ()),
      (dpLookup (minimaxP unitAdapter 1 () []).2 s).isSome = true :=
  ⟨(c5_lookup_store unitAdapter).1 3 () [([[5]], PyVal.ival 7)]
      (PyVal.ival 7) (by decide),
   (c5_lookup_store unitAdapter).2 0 () [] (by decide)⟩

/-- C6: for every `N ≥ 1` and every N×N board, applying `rotate` four times
returns the original board; and `rotate` maps cell `(r, c)` to position
`(c, N-1-r)`. -/
theorem c6_rotate_id (N : Nat) (s : Board) (hN : 1 ≤ N) (hlen : s.length = N)
    (hrows : ∀ row ∈ s, row.length = N) :
    rotate (rotate (rotate (rotate s))) = s ∧
    ∀ r c, r < N → c < N → entryB (rotate s) c (N - 1 - r) = entryB s r c := by
  constructor
  · exact rotate_four N s hlen hrows
  · intro r c hr hc
    have he := rotate_entry s (show c < s.length by omega)
      (show N - 1 - r < s.length by omega)
    rw [hlen] at he
    have hrr : N - 1 - (N - 1 - r) = r := by omega
    rw [hrr] at he
    exact he

theorem c6_witness :
    rotate (rotate (rotate (rotate [[1, 2], [3, 4]]))) = [[1, 2], [3, 4]] ∧
    ∀ r c, r < 2 → c < 2 →
      entryB (rotate [[1, 2], [3, 4]]) c (2 - 1 - r) =
        entryB [[1, 2], [3, 4]] r c :=
  c6_rotate_id 2 [[1, 2], [3, 4]] (by decide) (by decide) (by decide)

/-- C7: within one solving session no memo key is ever bound to two different
Values, in both game variants: every binding present before any search call
is still present, unchanged, afterwards (the number game writes only to unset
array entries; the placement game's `updateDP` inserts only absent keys). -/
theorem c7_memo_soundness :
    (∀ (n : Nat) (total : Int) (fuel st : Nat) (ct : Int) (mx : Bool)
        (alpha beta : Int) (dp s : Nat) (v : Int),
      dpGet dp s = some v →
      dpGet (minimaxF n total fuel st ct mx alpha beta dp).2 s = some v) ∧
    (∀ (σ : Type) (A : GameAdapter σ) (fuel : Nat) (g : σ) (dp : DPMap)
        (s : Board) (w : PyVal),
      dpLookup dp s = some w →
      dpLookup (minimaxP A fuel g dp).2 s = some w) := by
  constructor
  · intro n total fuel st ct mx alpha beta dp s v h
    exact (memoExt_minimaxF n total fuel st ct mx alpha beta dp).2 s v h
  · intro σ A fuel g dp s w h
    exact minimaxP_pres A fuel g dp s w h

theorem c7_witness :
    dpGet (minimaxF 1 5 1 0 0 true (-1) 1 (dpSet 0 3 1)).2 3 = some 1 ∧
    dpLookup (minimaxP unitAdapter 1 () [([[7]], PyVal.ival 2)]).2 [[7]] =
      some (PyVal.ival 2) :=
  ⟨c7_memo_soundness.1 1 5 1 0 0 true (-1) 1 (dpSet 0 3 1) 3 1 (by decide),
   c7_memo_soundness.2 Unit unitAdapter 1 () [([[7]], PyVal.ival 2)] [[7]]
      (PyVal.ival 2) (by decide)⟩

end Blog
